import Mathlib

/-!
# annie: the download-and-merge engine

A shallow embedding of `downloader/downloader.go` (with the extractor
`extractors/youku.go` as a producer of format maps) and the properties of
the format normalizer, the fragment fetcher and the merge step.

Conventions of the embedding.

* Go `int64` values are integers; every arithmetic operation of the source
  is followed by `wrap64`, the two's-complement reduction to 64 bits.
* A Go `map[string]FormatData` is an association list with distinct keys.
  The order in which `range` visits a map and the order `sort.Sort` gives
  to equal elements are not fixed by the language; they are the two fields
  of `Runtime`, constrained by `Runtime.Valid`.
* The file system is a function from paths to file contents, the remote
  side is a function from requests to responses, and every effect of the
  program is appended to a trace of `Event`s.
* `log.Fatal` ends the process at once (`os.Exit(1)`): nothing after it
  runs, deferred calls included. It is the outcome `Outcome.exited`.
-/

namespace Annie

/-! ## Machine integers -/

/-- Two's-complement reduction of an integer to the `int64` range. -/
def wrap64 (x : Int) : Int := (x + 2 ^ 63) % 2 ^ 64 - 2 ^ 63

/-- The values an `int64` can hold. -/
def InInt64 (x : Int) : Prop := -(2 ^ 63) ≤ x ∧ x < 2 ^ 63

/-! ## Data model -/

/-- The struct `URLData`: one fragment. -/
structure URLData where
  URL : String
  Size : Int
  Ext : String
deriving DecidableEq, Repr

/-- The struct `FormatData`: one rendition. -/
structure FormatData where
  URLs : List URLData
  Quality : String
  Size : Int
  name : String
deriving DecidableEq, Repr

/-- The zero value of `FormatData`, what indexing a Go map gives for a key
that is absent. -/
def FormatData.zero : FormatData := ⟨[], "", 0, ""⟩

/-- A `map[string]FormatData`. -/
abbrev FormatMap := List (String × FormatData)

/-- The two-result index expression `data, ok := m[k]`. -/
def mapLookup : FormatMap → String → Option FormatData
  | [], _ => none
  | (k1, d) :: rest, k => if k1 = k then some d else mapLookup rest k

/-- The index expression `m[k]`: the zero value when `k` is absent. -/
def mapIndex (m : FormatMap) (k : String) : FormatData :=
  (mapLookup m k).getD FormatData.zero

/-- The assignment `m[k] = d`. -/
def mapStore : FormatMap → String → FormatData → FormatMap
  | [], k, d => [(k, d)]
  | (k1, d1) :: rest, k, d =>
    if k1 = k then (k, d) :: rest else (k1, d1) :: mapStore rest k d

/-- The builtin `delete(m, k)`. -/
def mapDelete (m : FormatMap) (k : String) : FormatMap :=
  m.filter (fun e => decide (e.1 ≠ k))

/-- The struct `VideoData` (the field `Type` is written `Type_`). -/
structure VideoData where
  Site : String
  Title : String
  Type_ : String
  Formats : FormatMap
  sortedFormats : List FormatData
deriving DecidableEq, Repr

/-- The method `calculateTotalSize`: the `int64` sum of the fragment sizes. -/
def calculateTotalSize (data : FormatData) : FormatData :=
  { data with Size := data.URLs.foldl (fun size urlData => wrap64 (size + urlData.Size)) 0 }

/-- The method `formats.Less` on two elements: `f[i].Size > f[j].Size`. -/
def Less (a b : FormatData) : Bool := decide (a.Size > b.Size)

/-- What the Go language leaves open: the visiting order of `range` over a
map, and the permutation `sort.Sort` produces. -/
structure Runtime where
  mapOrder : FormatMap → List (String × FormatData)
  sortSort : List FormatData → List FormatData

/-- What the language does promise: `range` visits every entry once, and
`sort.Sort` returns a permutation in which no later element is `Less` than
an earlier one. -/
def Runtime.Valid (rt : Runtime) : Prop :=
  (∀ m, (rt.mapOrder m).Perm m) ∧
  (∀ l, (rt.sortSort l).Perm l ∧
    (rt.sortSort l).Pairwise (fun a b => Less b a = false))

/-- One admissible runtime: maps are visited in storage order and the sort
is an insertion sort. -/
def Runtime.reference : Runtime where
  mapOrder := fun m => m
  sortSort := fun l => l.insertionSort (fun a b => a.Size ≥ b.Size)

/-- The body of the `for k, data := range v.Formats` loop. -/
def genSortedStep (v : VideoData) (e : String × FormatData) : VideoData :=
  let data := if e.2.Size = 0 then calculateTotalSize e.2 else e.2
  let data := { data with name := e.1 }
  { v with Formats := mapStore v.Formats e.1 data,
           sortedFormats := v.sortedFormats ++ [data] }

/-- The method `genSortedFormats`. The result is `none` when the source
panics (index out of range on an empty `sortedFormats`). -/
def genSortedFormats (rt : Runtime) (v : VideoData) : Option VideoData :=
  if v.Formats.length = 1 then
    let data := mapIndex v.Formats "default"
    let data := { data with name := "default" }
    let data := if data.Size = 0 then calculateTotalSize data else data
    some { v with Formats := mapStore v.Formats "default" data,
                  sortedFormats := v.sortedFormats ++ [data] }
  else
    let v1 := (rt.mapOrder v.Formats).foldl genSortedStep v
    match rt.sortSort v1.sortedFormats with
    | [] => none
    | best :: rest =>
      let bestQuality := best.name
      let best1 := { best with name := "default" }
      some { v1 with Formats := mapDelete (mapStore v1.Formats "default" best1) bestQuality,
                     sortedFormats := best1 :: rest }

/-- The size claimed for a format: its `Size` when non-zero, otherwise the
`int64` sum of its fragments' sizes. -/
def derivedSize (data : FormatData) : Int :=
  if data.Size = 0 then (calculateTotalSize data).Size else data.Size

/-! ## The youku extractor's `genData` -/

/-- The struct `segs` of the youku extractor. -/
structure Segs where
  Size : Int
  URL : String
deriving DecidableEq, Repr

/-- The struct `stream` of the youku extractor (`Type` is written `Type_`). -/
structure Stream where
  Size : Int
  Width : Int
  Height : Int
  Segs : List Segs
  Type_ : String
deriving DecidableEq, Repr

/-- The first loop of `genData`: the type of the first stream of strictly
largest size. -/
def genDataBest (streams : List Stream) : Int × String :=
  streams.foldl (fun acc s => if s.Size > acc.1 then (s.Size, s.Type_) else acc) (0, "")

/-- The expression `strings.Split(s, sep)[0]` for a separator of one
character: what stands before the first separator, all of `s` when there is
none. -/
def beforeFirst (sep : Char) (s : String) : String :=
  ⟨s.data.takeWhile (fun c => c ≠ sep)⟩

/-- The last element of `strings.Split(s, sep)` for a separator of one
character: what stands after the last separator, all of `s` when there is
none. -/
def afterLast (sep : Char) (s : String) : String :=
  ⟨(s.data.reverse.takeWhile (fun c => c ≠ sep)).reverse⟩

/-- The extension `genData` gives the fragments of a stream: the first
segment's URL is cut at the first `?` (character 63) and the extension is
what follows the last `.` (character 46). -/
def genDataExt (stream : Stream) : String :=
  afterLast (Char.ofNat 46) (beforeFirst (Char.ofNat 63) (stream.Segs.headD ⟨0, ""⟩).URL)

/-- The quality label of `genData`:
`fmt.Sprintf("%s %dx%d", stream.Type, stream.Width, stream.Height)`. -/
def genDataQuality (stream : Stream) : String :=
  stream.Type_ ++ " " ++ toString stream.Width ++ "x" ++ toString stream.Height

/-- The function `genData`. The result is `none` when the source panics:
`stream.Segs[0]` on a stream without segments. -/
def genData (streams : List Stream) : Option FormatMap :=
  let bestQuality := (genDataBest streams).2
  if streams.any (fun stream => stream.Segs.isEmpty) then none
  else
    let format := streams.foldl (fun (format : FormatMap) stream =>
      let urls := stream.Segs.map (fun d => URLData.mk d.URL d.Size (genDataExt stream))
      mapStore format stream.Type_ ⟨urls, genDataQuality stream, stream.Size, ""⟩) []
    some (mapDelete (mapStore format "default" (mapIndex format bestQuality)) bestQuality)

/-! ## The world: files, the remote side, console, and the trace -/

/-- The value of the `Range` request header: absent, `bytes=<start>-`
(`suffix`) or `bytes=<start>-<end>` (`window`), as `fmt.Sprintf` writes
it. -/
inductive RangeHeader where
  | absent
  | suffix (start : Int)
  | window (start stop : Int)
deriving DecidableEq, Repr

/-- The `headers` map of `Save`: the keys `Referer` and `Range`. -/
structure Headers where
  Referer : String
  Range : RangeHeader
deriving DecidableEq, Repr

/-- A GET request as `request.Request` receives it. -/
structure Request where
  url : String
  headers : Headers
deriving DecidableEq, Repr

/-- What comes back for a request: the status code, the bytes of the body
that `io.Copy` moves into the file, and whether `io.Copy` ended with an
error. -/
structure Response where
  StatusCode : Int
  Body : List Nat
  copyErr : Bool
deriving DecidableEq, Repr

/-- The observable effects. -/
inductive Event where
  | print (text : String)
  | printInfo (format : String)
  | dumpJSON
  | logVideo
  | barNew (total : Int)
  | barStart
  | barAdd (n : Int)
  | barFinish
  | httpGet (r : Request)
  | create (path : String)
  | openAppend (path : String)
  | write (path : String) (data : List Nat)
  | writeText (path : String) (text : String)
  | close (path : String)
  | rename (oldpath newpath : String)
  | remove (path : String)
  | readLine
  | exec (name : String) (args : List String)
  | fatal (msg : String)
  | panic
deriving DecidableEq, Repr

/-- A file system: the content of the file at each path, if there is one. -/
abbrev FS := String → Option (List Nat)

/-- The unchanging surroundings of a run: the helpers of the packages
`utils` and `request` that are not among the sources, the remote side, the
operator, and the failures the operating system may report. -/
structure Env where
  /-- The call `utils.FilePath(name, ext, false)`. -/
  FilePath : String → String → String
  /-- The call `utils.FileName(name)`. -/
  FileName : String → String
  /-- The call `request.Request("GET", url, nil, headers)`; `none` when the
  request could not be made, which ends the process inside `request`. -/
  server : Request → Option Response
  /-- The line the operator types at the overwrite prompt shown for a
  path. -/
  stdin : String → String
  /-- Whether `os.OpenFile(path, O_APPEND|O_WRONLY, 0644)` returns an error. -/
  openErr : String → Bool
  /-- Whether `os.Create(path)` returns an error. -/
  createErr : String → Bool
  /-- Whether `os.Rename(oldpath, newpath)` returns an error. -/
  renameErr : String → String → Bool
  /-- The runs of the external program: the file system it leaves, or
  `none` when `cmd.Run()` returns an error. -/
  runCmd : String → List String → FS → Option FS

/-- The changing part: the file system and the trace so far. -/
structure State where
  fs : FS
  trace : List Event

/-- How a call ends: it returns, or the process has terminated. -/
inductive Outcome where
  | returned
  | exited
deriving DecidableEq, Repr

/-- Append events to the trace. -/
def State.emit (st : State) (es : List Event) : State :=
  { st with trace := st.trace ++ es }

/-- Replace the content at one path. -/
def FS.set (fs : FS) (path : String) (content : Option (List Nat)) : FS :=
  fun p => if p = path then content else fs p

/-- Modelled from the spec: `utils.FileSize`, which is not among the
sources. It reports whether a file exists at the path and its length; a
missing file has size 0. -/
def FileSize (fs : FS) (filePath : String) : Int × Bool :=
  match fs filePath with
  | some content => ((content.length : Int), true)
  | none => (0, false)

/-- The call `strings.Contains(s, substr)` on character lists. -/
def containsChars : List Char → List Char → Bool
  | [], sub => sub.isEmpty
  | c :: cs, sub => sub.isPrefixOf (c :: cs) || containsChars cs sub

/-- The call `strings.Contains(s, substr)`. -/
def stringsContains (s substr : String) : Bool := containsChars s.data substr.data

/-- The call `strings.Replace(s, "\n", "", -1)`: every newline removed. -/
def removeNewlines (s : String) : String := ⟨s.data.filter (fun c => c ≠ Char.ofNat 10)⟩

/-- The bytes of `[]byte(s)`: the UTF-8 encoding. -/
def utf8Bytes (s : String) : List Nat :=
  s.data.flatMap (fun c => (String.utf8EncodeChar c).map UInt8.toNat)

/-! ## The fragment fetcher -/

/-- The constant `chunkSize`: `10 * 1024 * 1024`. -/
def chunkSize : Int := 10 * 1024 * 1024

/-- The function `writeFile`, writing through the handle open on `file`.
The copy loop of `io.Copy` is taken as one step: the body goes to the file
and its length to the progress bar. -/
def writeFile (env : Env) (url : String) (file : String) (headers : Headers)
    (st : State) : Outcome × State :=
  let st := st.emit [.httpGet ⟨url, headers⟩]
  match env.server ⟨url, headers⟩ with
  | none => (.exited, st.emit [.fatal "request"])
  | some res =>
    if res.StatusCode ≥ 400 then
      (.exited, st.emit [.print url, .fatal "HTTP error"])
    else
      let st : State :=
        { fs := st.fs.set file (some ((st.fs file).getD [] ++ res.Body)),
          trace := st.trace ++ [.write file res.Body, .barAdd res.Body.length] }
      if res.copyErr then (.exited, st.emit [.fatal "file copy error"])
      else (.returned, st)

/-- The loop `for ; i <= chunk; i++` of `Save`, with `n` iterations left.
The counter `i` runs from 1 to `chunk`, which is at most `2^63 / chunkSize +
1`, so that it cannot overflow; the loop is taken by the number of passes.
Go evaluates `start + chunkSize - 1` and `end + 1` in `int64`. -/
def chunkLoop (env : Env) (url file refer : String) :
    Nat → Int → State → Outcome × State
  | 0, _, st => (.returned, st)
  | n + 1, start, st =>
    let stop := wrap64 (start + chunkSize - 1)
    match writeFile env url file ⟨refer, .window start stop⟩ st with
    | (.exited, st1) => (.exited, st1)
    | (.returned, st1) => chunkLoop env url file refer n (wrap64 (stop + 1)) st1

/-- The number of passes of the chunk loop: `remainingSize / chunkSize`,
one more when the division leaves a remainder (Go's `/` and `%` truncate
toward zero). -/
def chunkCount (remainingSize : Int) : Int :=
  let chunk := Int.tdiv remainingSize chunkSize
  if Int.tmod remainingSize chunkSize ≠ 0 then wrap64 (chunk + 1) else chunk

/-- The transfer of `Save`: windowed requests for a `googlevideo` URL, one
request otherwise. `headers` is the header map as built before. -/
def transfer (env : Env) (urlData : URLData) (file : String) (headers : Headers)
    (tempFileSize : Int) (st : State) : Outcome × State :=
  if stringsContains urlData.URL "googlevideo" then
    let start : Int := if tempFileSize > 0 then tempFileSize else 0
    let remainingSize : Int :=
      if tempFileSize > 0 then wrap64 (urlData.Size - tempFileSize) else urlData.Size
    chunkLoop env urlData.URL file headers.Referer (chunkCount remainingSize).toNat start st
  else
    writeFile env urlData.URL file headers st

/-- The deferred function of `Save`: close the file, rename the temp file
to the final path. -/
def closeAndRename (env : Env) (tempFilePath filePath : String) (st : State) :
    Outcome × State :=
  let st := st.emit [.close tempFilePath, .rename tempFilePath filePath]
  if env.renameErr tempFilePath filePath then (.exited, st.emit [.fatal "rename"])
  else
    (.returned,
      { st with fs := (st.fs.set filePath (st.fs tempFilePath)).set tempFilePath none })

/-- Where `Save` stands once the temp file is open: either it has already
ended (`done`), or the transfer is about to start (`ready`) on the open
temp file, with the header map built and the temp file's size read. -/
inductive Opened where
  | done (result : Outcome × State)
  | ready (filePath tempFilePath : String) (headers : Headers) (tempFileSize : Int)
      (st : State)

/-- The function `Save` from its first line to the check of `fileError`.
`bar` is `none` for a nil progress bar and holds the bar's total
otherwise. -/
def saveOpen (env : Env) (urlData : URLData) (refer fileName : String)
    (bar : Option Int) (st : State) : Opened :=
  let filePath := env.FilePath fileName urlData.Ext
  let fileSize := (FileSize st.fs filePath).1
  let fileExists := (FileSize st.fs filePath).2
  let st := st.emit (if bar.isNone then [.barNew urlData.Size, .barStart] else [])
  if fileExists && fileSize == urlData.Size then
    .done (.returned, st.emit [.print (filePath ++ ": file already exists, skipping\n"),
                               .barAdd fileSize])
  else
    let prompted : Bool := fileExists && fileSize != urlData.Size
    let st := st.emit (if prompted then
        [.print (filePath ++ ": file already exists, overwriting? [y/n]"), .readLine]
      else [])
    if prompted && removeNewlines (env.stdin filePath) != "y" then .done (.returned, st)
    else
      let tempFilePath := filePath ++ ".download"
      let tempFileSize := (FileSize st.fs tempFilePath).1
      if tempFileSize > 0 then
        let st := st.emit [.openAppend tempFilePath, .barAdd tempFileSize]
        if env.openErr tempFilePath then .done (.exited, st.emit [.fatal "open"])
        else .ready filePath tempFilePath ⟨refer, .suffix tempFileSize⟩ tempFileSize st
      else
        let st := st.emit [.create tempFilePath]
        if env.createErr tempFilePath then .done (.exited, st.emit [.fatal "create"])
        else
          .ready filePath tempFilePath ⟨refer, .absent⟩ tempFileSize
            { st with fs := st.fs.set tempFilePath (some []) }

/-- The function `Save`: the opening, the transfer, and then the deferred
close and rename, which run when the function returns. -/
def Save (env : Env) (urlData : URLData) (refer fileName : String)
    (bar : Option Int) (st : State) : Outcome × State :=
  match saveOpen env urlData refer fileName bar st with
  | .done result => result
  | .ready filePath tempFilePath headers tempFileSize st1 =>
    match transfer env urlData tempFilePath headers tempFileSize st1 with
    | (.exited, st2) => (.exited, st2)
    | (.returned, st2) => closeAndRename env tempFilePath filePath st2

/-! ## The fetch coordinator and the merge step -/

/-- The package-level settings of `config` that `Download` reads. -/
structure Config where
  ExtractedData : Bool
  OutputName : String
  Format : String
  InfoOnly : Bool
  ThreadNumber : Int
deriving DecidableEq, Repr

/-- The part name `fmt.Sprintf("%s[%d]", title, index)`. -/
def partFileName (title : String) (index : Nat) : String :=
  title ++ "[" ++ toString index ++ "]"

/-- The slice `parts` that the fan-out loop of `Download` builds: the path
of every part, in fragment index order. -/
def partPaths (env : Env) (title : String) (urls : List URLData) : List String :=
  urls.enum.map (fun p => env.FilePath (partFileName title p.1) p.2.Ext)

/-- The goroutines of `Download`, each running `Save` on one fragment. A
fetch is taken as one step; `order` lists the fragment indices in the order
in which the fetches run. The process stops at the first fatal fetch. -/
def runSaves (env : Env) (refer title : String) (bar : Int) (urls : List URLData) :
    List Nat → State → Outcome × State
  | [], st => (.returned, st)
  | index :: rest, st =>
    match urls.get? index with
    | none => runSaves env refer title bar urls rest st
    | some url =>
      match Save env url refer (partFileName title index) (some bar) st with
      | (.exited, st1) => (.exited, st1)
      | (.returned, st1) => runSaves env refer title bar urls rest st1

/-- One line of the ffmpeg input list: `fmt.Sprintf("file '%s'\n", part)`. -/
def manifestLine (part : String) : String := "file \x27" ++ part ++ "\x27\n"

/-- The writing of the ffmpeg input list. When `os.Create` fails its error
is dropped and the handle is nil, so that the writes and the close do
nothing. -/
def writeManifest (env : Env) (mergeFileName : String) (parts : List String)
    (st : State) : State :=
  let st := st.emit [.create mergeFileName]
  if env.createErr mergeFileName then st
  else
    let st : State := { st with fs := st.fs.set mergeFileName (some []) }
    let st := parts.foldl (fun (st : State) part =>
      { fs := st.fs.set mergeFileName
          (some ((st.fs mergeFileName).getD [] ++ utf8Bytes (manifestLine part))),
        trace := st.trace ++ [.writeText mergeFileName (manifestLine part)] }) st
    st.emit [.close mergeFileName]

/-- The arguments of ffmpeg for the multi-input mux (sites with `youtube`
in their name). -/
def muxArgs (parts : List String) (filePath : String) : List String :=
  ["-y"] ++ parts.flatMap (fun part => ["-i", part]) ++
    ["-c:v", "copy", "-c:a", "aac", "-strict", "experimental", filePath]

/-- The arguments of ffmpeg for the concatenation mux. -/
def concatArgs (mergeFileName filePath : String) : List String :=
  ["-y", "-f", "concat", "-safe", "-1", "-i", mergeFileName, "-c", "copy",
    "-bsf:a", "aac_adtstoasc", filePath]

/-- The merge part of `Download`, from `mergeFileName := title + ".txt"`
to the removal of the parts. -/
def merge (env : Env) (site title : String) (parts : List String) (st : State) :
    Outcome × State :=
  let mergeFileName := title ++ ".txt"
  let filePath := env.FilePath title "mp4"
  let st := st.emit [.print ("Merging video parts into " ++ filePath ++ "\n")]
  let prepared : List String × State :=
    if stringsContains site "youtube" then (muxArgs parts filePath, st)
    else (concatArgs mergeFileName filePath, writeManifest env mergeFileName parts st)
  let st := prepared.2.emit [.exec "ffmpeg" prepared.1]
  match env.runCmd "ffmpeg" prepared.1 st.fs with
  | none => (.exited, st.emit [.fatal "ffmpeg"])
  | some fs =>
    (.returned,
      (mergeFileName :: parts).foldl (fun (st : State) path =>
        { fs := st.fs.set path none, trace := st.trace ++ [.remove path] })
        { st with fs := fs })

/-- The method `Download`. -/
def Download (rt : Runtime) (env : Env) (config : Config) (order : List Nat)
    (v : VideoData) (refer : String) (st : State) : Outcome × State :=
  match genSortedFormats rt v with
  | none => (.exited, st.emit [.panic])
  | some v =>
    if config.ExtractedData then (.returned, st.emit [.dumpJSON])
    else
      let title := if config.OutputName = "" then v.Title else env.FileName config.OutputName
      let format := if config.Format = "" then "default" else config.Format
      match mapLookup v.Formats format with
      | none => (.exited, st.emit [.logVideo, .fatal ("No format named " ++ format)])
      | some data =>
        let st := st.emit [.printInfo format]
        if config.InfoOnly then (.returned, st)
        else
          let mergedFilePath := env.FilePath title "mp4"
          if (FileSize st.fs mergedFilePath).2 then
            (.returned,
              st.emit [.print (mergedFilePath ++ ": file already exists, skipping\n")])
          else
            let st := st.emit [.barNew data.Size, .barStart]
            if data.URLs.length = 1 then
              match Save env (data.URLs.headD ⟨"", 0, ""⟩) refer title (some data.Size) st with
              | (.exited, st1) => (.exited, st1)
              | (.returned, st1) => (.returned, st1.emit [.barFinish])
            else
              match runSaves env refer title data.Size data.URLs order st with
              | (.exited, st1) => (.exited, st1)
              | (.returned, st1) =>
                let st2 := st1.emit [.barFinish]
                if v.Type_ ≠ "video" then (.returned, st2)
                else merge env v.Site title (partPaths env title data.URLs) st2

/-! ## Reading a trace -/

/-- The requests among some events, in order. -/
def requestsOf (es : List Event) : List Request :=
  es.filterMap (fun e => match e with | .httpGet r => some r | _ => none)

/-- The amounts added to the progress bar among some events, in order. -/
def barAddsOf (es : List Event) : List Int :=
  es.filterMap (fun e => match e with | .barAdd n => some n | _ => none)

/-- The lines of text written to the file at `path` among some events, in
order. -/
def textWritesOf (path : String) (es : List Event) : List String :=
  es.filterMap (fun e => match e with
    | .writeText p text => if p = path then some text else none
    | _ => none)

/-- The program runs started among some events, in order. -/
def execsOf (es : List Event) : List (String × List String) :=
  es.filterMap (fun e => match e with | .exec name args => some (name, args) | _ => none)

/-- Whether an event creates, opens for writing, writes, renames or removes
a file. -/
def Event.changesFile : Event → Bool
  | .create _ => true
  | .openAppend _ => true
  | .write _ _ => true
  | .writeText _ _ => true
  | .rename _ _ => true
  | .remove _ => true
  | _ => false

/-- Whether an event belongs to the fetch path: a request, a log line, a
write to the open file, a bar update, or the fatal exit. -/
def Event.isFetch : Event → Bool
  | .httpGet _ => true
  | .print _ => true
  | .write _ _ => true
  | .barAdd _ => true
  | .fatal _ => true
  | _ => false

/-- The length of the byte range a `Range` header asks for, when it names
both ends. -/
def RangeHeader.requestedLength : RangeHeader → Option Int
  | .window start stop => some (stop - start + 1)
  | _ => none

/-! ## The remote side of the resume and chunk-split properties -/

/-- The server in the words of the specification, for remote content `C` of
length `S`: `Range: bytes=a-b` is answered with `C[a..min(b,S-1)]`,
`Range: bytes=a-` with `C[a..S-1]`, and a request without a range with all
of `C`; the copy never fails. -/
def rangeServer (C : List Nat) : RangeHeader → Response
  | .absent => ⟨200, C, false⟩
  | .suffix a => ⟨206, C.drop a.toNat, false⟩
  | .window a b =>
    ⟨206, (C.drop a.toNat).take (min b ((C.length : Int) - 1) + 1 - a).toNat, false⟩

/-- An environment serves `C` at `url`: every request for `url` is answered
as `rangeServer C` answers its range. -/
def Serves (env : Env) (url : String) (C : List Nat) : Prop :=
  ∀ headers, env.server ⟨url, headers⟩ = some (rangeServer C headers.Range)

/-- An environment answers every request for `url` with a status below
400 and a body that is copied without error. -/
def Answers (env : Env) (url : String) : Prop :=
  ∀ headers, ∃ res, env.server ⟨url, headers⟩ = some res ∧
    res.StatusCode < 400 ∧ res.copyErr = false

/-- The request of the `i`-th window of a chunked transfer that starts at
byte 0: `bytes=<i*chunkSize>-<i*chunkSize+chunkSize-1>`, the end computed
in `int64`. -/
def windowRequest (url refer : String) (i : Nat) : Request :=
  ⟨url, ⟨refer, .window (i * chunkSize) (wrap64 (i * chunkSize + chunkSize - 1))⟩⟩

/-! ## Environments and states for the worked examples -/

/-- An example environment: paths are `name.ext`, every request is answered
by `server`, the operator answers `y`, and no system call fails. -/
def exampleEnv (server : Request → Option Response) : Env where
  FilePath := fun name ext => name ++ "." ++ ext
  FileName := fun name => name
  server := server
  stdin := fun _ => "y\n"
  openErr := fun _ => false
  createErr := fun _ => false
  renameErr := fun _ _ => false
  runCmd := fun _ _ fs => some fs

/-- The empty file system with an empty trace. -/
def emptyState : State := ⟨fun _ => none, []⟩

/-- Whether an event is console or progress-bar set-up: a printed line, a
line read, a new bar, a bar started. -/
def Event.isConsole : Event → Bool
  | .print _ => true
  | .readLine => true
  | .barNew _ => true
  | .barStart => true
  | _ => false

/-- The events of `Save` before it opens the temp file, when it goes on to
open it: the set-up of a new bar and the overwrite prompt. -/
def openPrelude (env : Env) (urlData : URLData) (fileName : String) (bar : Option Int)
    (st : State) : List Event :=
  (if bar.isNone then [.barNew urlData.Size, .barStart] else []) ++
  (if (FileSize st.fs (env.FilePath fileName urlData.Ext)).2 &&
      (FileSize st.fs (env.FilePath fileName urlData.Ext)).1 != urlData.Size
    then [.print (env.FilePath fileName urlData.Ext ++
      ": file already exists, overwriting? [y/n]"), .readLine] else [])

/-- A run of `Save` whose only request is answered with status 404. -/
def httpErrorRun : Outcome × State :=
  Save (exampleEnv (fun _ => some ⟨404, [], false⟩)) ⟨"http://host/v", 1000, "mp4"⟩
    "ref" "t" none emptyState

/-- Remote content of `2^63 - 1` bytes, the largest size an `int64` holds. -/
def hugeContent : List Nat := List.replicate 9223372036854775807 0

/-- An environment that serves `hugeContent` at every URL, in the words of
the specification. -/
def hugeEnv : Env := exampleEnv (fun r => some (rangeServer hugeContent r.headers.Range))

/-- A state in which the temp file of `t.mp4` holds all of `hugeContent`
but its last byte, and no other file exists. -/
def hugeState : State :=
  ⟨FS.set (fun _ => none) "t.mp4.download" (some (hugeContent.take 9223372036854775806)), []⟩

/-- Whether an event is one that `Save` can produce: console and bar
events, the fetch path, and the opening, closing and renaming of the temp
file. -/
def Event.isSave (e : Event) : Bool :=
  e.isFetch || e.isConsole ||
    match e with
    | .create _ => true
    | .openAppend _ => true
    | .close _ => true
    | .rename _ _ => true
    | _ => false

/-- The trace of `st1` is the trace of `st` followed by events that `Save`
can produce. -/
def SaveExtends (st st1 : State) : Prop :=
  ∃ added, st1.trace = st.trace ++ added ∧ ∀ e ∈ added, e.isSave = true

/-- The state in which the fan-out of `Download` starts: the stream info is
printed and the progress bar is created and started. -/
def fanOutState (st : State) (format : String) (total : Int) : State :=
  (st.emit [.printInfo format]).emit [.barNew total, .barStart]

/-- What the loop of `genSortedFormats` appends to `sortedFormats` for one
entry of the map: the format with its size derived and its name set to the
key. -/
def normalized (e : String × FormatData) : FormatData :=
  { (if e.2.Size = 0 then calculateTotalSize e.2 else e.2) with name := e.1 }

/-- The map the youku extractor builds for a stream `mp4hd` of size 100 and
a stream `flvhd` of size 50, each of one segment: the larger is stored
under `default`. -/
def youkuFormats : Option FormatMap :=
  genData
    [⟨100, 1280, 720, [⟨100, "http://a/1.mp4?vid=1"⟩], "mp4hd"⟩,
     ⟨50, 640, 360, [⟨50, "http://a/2.mp4?vid=1"⟩], "flvhd"⟩]

/-- A request is answered well: the server returns a response with a
status below 400 whose body is copied without error. Otherwise the request
could not be made, or the status is 400 or more, or the copy fails. -/
def RequestOk (env : Env) (r : Request) : Prop :=
  ∃ res, env.server r = some res ∧ res.StatusCode < 400 ∧ res.copyErr = false

/-- What a piece of the fetch path does, from state `st` to the result `r`,
writing through the handle on `file`: it adds only fetch events, touches no
other file, keeps `file` in existence, and either returns with every
request it made answered well, or has ended the process at a request that
was not. -/
def FetchStep (env : Env) (file : String) (st : State) (r : Outcome × State) : Prop :=
  ∃ added, r.2.trace = st.trace ++ added ∧ (∀ e ∈ added, e.isFetch = true) ∧
    (∀ p, p ≠ file → r.2.fs p = st.fs p) ∧
    ((st.fs file).isSome = true → (r.2.fs file).isSome = true) ∧
    ((r.1 = .returned ∧ ∀ q ∈ requestsOf added, RequestOk env q) ∨
     (r.1 = .exited ∧ ∃ q ∈ requestsOf added, ¬ RequestOk env q))

/-- An environment in which the manifest `t.txt` cannot be created (a
directory of that name exists, say) and ffmpeg fails when its input list is
missing; everything else is as in `exampleEnv`. -/
def manifestFailEnv : Env where
  FilePath := fun name ext => name ++ "." ++ ext
  FileName := fun name => name
  server := fun _ => some ⟨200, [1, 2, 3], false⟩
  stdin := fun _ => "y\n"
  openErr := fun _ => false
  createErr := fun p => p == "t.txt"
  renameErr := fun _ _ => false
  runCmd := fun _ _ fs => if (fs "t.txt").isSome then some fs else none

/-- A run of `Download` in `manifestFailEnv` on a video of two fragments. -/
def manifestFailRun : Outcome × State :=
  Download Runtime.reference manifestFailEnv ⟨false, "", "", false, 2⟩ [0, 1]
    ⟨"youku", "t", "video",
      [("default", ⟨[⟨"http://a/0", 3, "ts"⟩, ⟨"http://a/1", 3, "ts"⟩], "hd", 6, ""⟩)], []⟩
    "ref" emptyState

/-! # Properties -/

/-! ## Machine integers and states: lemmas -/

@[simp] theorem State.emit_fs (st : State) (es : List Event) : (st.emit es).fs = st.fs := rfl

@[simp] theorem State.emit_trace (st : State) (es : List Event) :
    (st.emit es).trace = st.trace ++ es := rfl


theorem wrap64_of_inInt64 {x : Int} (h : InInt64 x) : wrap64 x = x := by
  unfold InInt64 at h
  unfold wrap64
  omega

theorem wrap64_add_wrap64 (a b : Int) : wrap64 (wrap64 a + b) = wrap64 (a + b) := by
  unfold wrap64
  omega

theorem wrap64_inInt64 (x : Int) : InInt64 (wrap64 x) := by
  unfold InInt64 wrap64
  omega

/-! ## The fetch path only fetches -/

theorem writeFile_trace (env : Env) (url file : String) (headers : Headers) (st : State) :
    ∃ added, (writeFile env url file headers st).2.trace = st.trace ++ added ∧
      ∀ e ∈ added, e.isFetch = true := by
  unfold writeFile
  cases h : env.server ⟨url, headers⟩ with
  | none => exact ⟨[.httpGet ⟨url, headers⟩, .fatal "request"], by simp [State.emit], by simp [Event.isFetch]⟩
  | some res =>
    by_cases h1 : res.StatusCode ≥ 400
    · exact ⟨[.httpGet ⟨url, headers⟩, .print url, .fatal "HTTP error"], by simp [State.emit, h1],
        by simp [Event.isFetch]⟩
    · by_cases h2 : res.copyErr = true
      · exact ⟨[.httpGet ⟨url, headers⟩, .write file res.Body, .barAdd res.Body.length,
          .fatal "file copy error"], by simp [State.emit, h1, h2], by simp [Event.isFetch]⟩
      · exact ⟨[.httpGet ⟨url, headers⟩, .write file res.Body, .barAdd res.Body.length],
          by simp [State.emit, h1, h2], by simp [Event.isFetch]⟩

theorem chunkLoop_succ (env : Env) (url file refer : String) (n : Nat) (start : Int)
    (st : State) :
    chunkLoop env url file refer (n + 1) start st =
      match writeFile env url file ⟨refer, .window start (wrap64 (start + chunkSize - 1))⟩ st with
      | (.exited, st1) => (.exited, st1)
      | (.returned, st1) =>
        chunkLoop env url file refer n (wrap64 (wrap64 (start + chunkSize - 1) + 1)) st1 := rfl

theorem chunkLoop_trace (env : Env) (url file refer : String) (n : Nat) :
    ∀ (start : Int) (st : State),
    ∃ added, (chunkLoop env url file refer n start st).2.trace = st.trace ++ added ∧
      ∀ e ∈ added, e.isFetch = true := by
  induction n with
  | zero => intro start st; exact ⟨[], by simp [chunkLoop], by simp⟩
  | succ n ih =>
    intro start st
    obtain ⟨a1, h1, h1f⟩ := writeFile_trace env url file
      ⟨refer, .window start (wrap64 (start + chunkSize - 1))⟩ st
    rw [chunkLoop_succ]
    cases hw : writeFile env url file ⟨refer, .window start (wrap64 (start + chunkSize - 1))⟩ st with
    | mk o st1 =>
      rw [hw] at h1
      cases o with
      | exited => exact ⟨a1, by simpa using h1, h1f⟩
      | returned =>
        obtain ⟨a2, h2, h2f⟩ := ih (wrap64 (wrap64 (start + chunkSize - 1) + 1)) st1
        refine ⟨a1 ++ a2, ?_, ?_⟩
        · simp only [] at h1 ⊢
          rw [h2, h1, List.append_assoc]
        · intro e he
          rcases List.mem_append.1 he with h | h
          · exact h1f e h
          · exact h2f e h

theorem transfer_trace (env : Env) (urlData : URLData) (file : String) (headers : Headers)
    (tempFileSize : Int) (st : State) :
    ∃ added, (transfer env urlData file headers tempFileSize st).2.trace = st.trace ++ added ∧
      ∀ e ∈ added, e.isFetch = true := by
  unfold transfer
  split
  · exact chunkLoop_trace _ _ _ _ _ _ _
  · exact writeFile_trace _ _ _ _ _

/-! ## The opening of `Save` -/

theorem openPrelude_isConsole (env : Env) (urlData : URLData) (fileName : String)
    (bar : Option Int) (st : State) :
    ∀ e ∈ openPrelude env urlData fileName bar st, e.isConsole = true := by
  intro e he
  unfold openPrelude at he
  rcases List.mem_append.1 he with h1 | h1
  · split at h1 <;> simp at h1
    rcases h1 with h1 | h1 <;> subst h1 <;> rfl
  · split at h1 <;> simp at h1
    rcases h1 with h1 | h1 <;> subst h1 <;> rfl

theorem saveOpen_ready (env : Env) (urlData : URLData) (refer fileName : String)
    (bar : Option Int) (st : State) (filePath tempFilePath : String) (headers : Headers)
    (tempFileSize : Int) (st1 : State)
    (h : saveOpen env urlData refer fileName bar st =
      .ready filePath tempFilePath headers tempFileSize st1) :
    filePath = env.FilePath fileName urlData.Ext ∧
    tempFilePath = env.FilePath fileName urlData.Ext ++ ".download" ∧
    tempFileSize = (FileSize st.fs tempFilePath).1 ∧
    headers = ⟨refer, if tempFileSize > 0 then .suffix tempFileSize else .absent⟩ ∧
    st1.fs = (if tempFileSize > 0 then st.fs else st.fs.set tempFilePath (some [])) ∧
    st1.trace = st.trace ++ openPrelude env urlData fileName bar st ++
        (if tempFileSize > 0 then [.openAppend tempFilePath, .barAdd tempFileSize]
         else [.create tempFilePath]) := by
  simp only [saveOpen] at h
  split at h
  · cases h
  · split at h
    · cases h
    · simp only [State.emit_fs] at h
      by_cases c3 : (FileSize st.fs (env.FilePath fileName urlData.Ext ++ ".download")).1 > 0
      · rw [if_pos c3] at h
        split at h
        · cases h
        · cases h
          refine ⟨rfl, rfl, rfl, by simp [c3], by simp [c3], ?_⟩
          simp [c3, openPrelude, List.append_assoc]
      · rw [if_neg c3] at h
        split at h
        · cases h
        · cases h
          refine ⟨rfl, rfl, rfl, by simp [c3], by simp [c3], ?_⟩
          simp [c3, openPrelude, List.append_assoc]

theorem saveOpen_eq_ready (env : Env) (urlData : URLData) (refer fileName : String)
    (bar : Option Int) (st : State)
    (hfinal : ∀ content, st.fs (env.FilePath fileName urlData.Ext) = some content →
      (content.length : Int) ≠ urlData.Size ∧
      removeNewlines (env.stdin (env.FilePath fileName urlData.Ext)) = "y")
    (hopen : (FileSize st.fs (env.FilePath fileName urlData.Ext ++ ".download")).1 > 0 →
      env.openErr (env.FilePath fileName urlData.Ext ++ ".download") = false)
    (hcreate : ¬ (FileSize st.fs (env.FilePath fileName urlData.Ext ++ ".download")).1 > 0 →
      env.createErr (env.FilePath fileName urlData.Ext ++ ".download") = false) :
    saveOpen env urlData refer fileName bar st =
      .ready (env.FilePath fileName urlData.Ext)
        (env.FilePath fileName urlData.Ext ++ ".download")
        ⟨refer, if (FileSize st.fs (env.FilePath fileName urlData.Ext ++ ".download")).1 > 0
          then .suffix (FileSize st.fs (env.FilePath fileName urlData.Ext ++ ".download")).1
          else .absent⟩
        (FileSize st.fs (env.FilePath fileName urlData.Ext ++ ".download")).1
        ⟨if (FileSize st.fs (env.FilePath fileName urlData.Ext ++ ".download")).1 > 0
          then st.fs
          else st.fs.set (env.FilePath fileName urlData.Ext ++ ".download") (some []),
         st.trace ++ openPrelude env urlData fileName bar st ++
          (if (FileSize st.fs (env.FilePath fileName urlData.Ext ++ ".download")).1 > 0
           then [.openAppend (env.FilePath fileName urlData.Ext ++ ".download"),
             .barAdd (FileSize st.fs (env.FilePath fileName urlData.Ext ++ ".download")).1]
           else [.create (env.FilePath fileName urlData.Ext ++ ".download")])⟩ := by
  have c1 : ((FileSize st.fs (env.FilePath fileName urlData.Ext)).2 &&
      (FileSize st.fs (env.FilePath fileName urlData.Ext)).1 == urlData.Size) = false := by
    unfold FileSize
    cases hc : st.fs (env.FilePath fileName urlData.Ext) with
    | none => simp
    | some content => simpa using (hfinal content hc).1
  have c2 : (((FileSize st.fs (env.FilePath fileName urlData.Ext)).2 &&
      (FileSize st.fs (env.FilePath fileName urlData.Ext)).1 != urlData.Size) &&
      removeNewlines (env.stdin (env.FilePath fileName urlData.Ext)) != "y") = false := by
    unfold FileSize
    cases hc : st.fs (env.FilePath fileName urlData.Ext) with
    | none => simp
    | some content => simp [(hfinal content hc).2]
  simp only [saveOpen, c1, c2, State.emit_fs]
  by_cases c3 : (FileSize st.fs (env.FilePath fileName urlData.Ext ++ ".download")).1 > 0
  · simp [c3, hopen c3, openPrelude, List.append_assoc, State.emit]
  · simp [c3, hcreate c3, openPrelude, List.append_assoc, State.emit]

/-! ## The fragment fetcher: skip, size zero, close and rename -/

/-- C4: when the final target file exists with length equal to
`urlData.Size`, `Save` returns having issued no HTTP request, added exactly
`urlData.Size` to the progress bar, and created, written and renamed no
file: the file system is unchanged. -/
theorem Save_skips_complete_file (env : Env) (urlData : URLData) (refer fileName : String)
    (bar : Option Int) (st : State) (content : List Nat)
    (hfile : st.fs (env.FilePath fileName urlData.Ext) = some content)
    (hsize : (content.length : Int) = urlData.Size) :
    ∃ added, Save env urlData refer fileName bar st = (.returned, ⟨st.fs, st.trace ++ added⟩) ∧
      requestsOf added = [] ∧ barAddsOf added = [urlData.Size] ∧
      added.all (fun e => !e.changesFile) = true := by
  refine ⟨(if bar.isNone then [.barNew urlData.Size, .barStart] else []) ++
    [.print (env.FilePath fileName urlData.Ext ++ ": file already exists, skipping\n"),
     .barAdd urlData.Size], ?_, ?_, ?_, ?_⟩
  · simp only [Save, saveOpen, FileSize, hfile, hsize]
    cases bar <;> simp [State.emit]
  · cases bar <;> simp [requestsOf]
  · cases bar <;> simp [barAddsOf]
  · cases bar <;> simp [Event.changesFile]

/-- Witness of C4: a 3-byte file already in place for a 3-byte fragment. -/
theorem Save_skips_complete_file_witness :
    ∃ added, Save (exampleEnv (fun _ => none)) ⟨"http://host/v", 3, "mp4"⟩ "ref" "t" none
        ⟨FS.set (fun _ => none) "t.mp4" (some [7, 8, 9]), []⟩ =
        (.returned, ⟨FS.set (fun _ => none) "t.mp4" (some [7, 8, 9]), [] ++ added⟩) ∧
      requestsOf added = [] ∧ barAddsOf added = [3] ∧
      added.all (fun e => !e.changesFile) = true :=
  Save_skips_complete_file (exampleEnv (fun _ => none)) ⟨"http://host/v", 3, "mp4"⟩ "ref" "t"
    none ⟨FS.set (fun _ => none) "t.mp4" (some [7, 8, 9]), []⟩ [7, 8, 9] (by decide) (by decide)

/-- C9 (the code at the failing input): for a fragment of `Size` 0 whose
final file exists and is empty, `Save` takes the branch "file already
exists, skipping": it prints that line, adds 0 to the bar and returns,
leaving the file system as it was and issuing no request. -/
theorem Save_size_zero_takes_skip_branch (env : Env) (url ext refer fileName : String)
    (bar : Option Int) (fs : FS) (trace : List Event) :
    Save env ⟨url, 0, ext⟩ refer fileName bar
        ⟨fs.set (env.FilePath fileName ext) (some []), trace⟩ =
      (.returned, ⟨fs.set (env.FilePath fileName ext) (some []),
        trace ++ (if bar.isNone then [.barNew 0, .barStart] else []) ++
          [.print (env.FilePath fileName ext ++ ": file already exists, skipping\n"),
           .barAdd 0]⟩) := by
  simp only [Save, saveOpen, FileSize, FS.set]
  cases bar <;> simp [State.emit]

/-- How an empty final file comes about for a fragment of `Size` 0: on a
`googlevideo` URL the chunk loop runs zero times, so that `Save` issues no
request and renames the empty temp file to the final path; the next run
then takes the skip branch. -/
theorem Save_size_zero_chunked_leaves_empty_file :
    requestsOf (Save (exampleEnv (fun _ => some ⟨200, [1, 2, 3], false⟩))
      ⟨"https://r1.googlevideo.com/live", 0, "mp4"⟩ "ref" "t" none emptyState).2.trace = [] ∧
    (Save (exampleEnv (fun _ => some ⟨200, [1, 2, 3], false⟩))
      ⟨"https://r1.googlevideo.com/live", 0, "mp4"⟩ "ref" "t" none emptyState).2.fs "t.mp4" =
      some [] := by
  decide

/-- C10, as stated, fails: a run of `Save` that reaches the transfer and
gets status 404 ends the process; the temp file is not closed by `Save` and
not renamed: it stays under its temp path and no final file appears. -/
theorem Save_http_error_leaves_temp_unrenamed :
    httpErrorRun.1 = .exited ∧
    httpErrorRun.2.trace =
      [.barNew 1000, .barStart, .create "t.mp4.download",
       .httpGet ⟨"http://host/v", ⟨"ref", .absent⟩⟩, .print "http://host/v",
       .fatal "HTTP error"] ∧
    Event.close "t.mp4.download" ∉ httpErrorRun.2.trace ∧
    Event.rename "t.mp4.download" "t.mp4" ∉ httpErrorRun.2.trace ∧
    httpErrorRun.2.fs "t.mp4" = none ∧
    httpErrorRun.2.fs "t.mp4.download" = some [] := by
  decide

/-! ## The chunked transfer: the requests -/

theorem chunkSize_eq : chunkSize = 10485760 := by decide

theorem requestsOf_append (a b : List Event) :
    requestsOf (a ++ b) = requestsOf a ++ requestsOf b := by
  simp [requestsOf, List.filterMap_append]

theorem requestsOf_of_isConsole (es : List Event) (h : ∀ e ∈ es, e.isConsole = true) :
    requestsOf es = [] := by
  induction es with
  | nil => rfl
  | cons e es ih =>
    have he := h e (List.mem_cons_self _ _)
    have ih1 := ih (fun x hx => h x (List.mem_cons_of_mem _ hx))
    cases e <;> simp_all [requestsOf, Event.isConsole]

theorem writeFile_ok (env : Env) (url file : String) (headers : Headers) (st : State)
    (res : Response) (hres : env.server ⟨url, headers⟩ = some res)
    (hstatus : res.StatusCode < 400) (hcopy : res.copyErr = false) :
    writeFile env url file headers st =
      (.returned, ⟨st.fs.set file (some ((st.fs file).getD [] ++ res.Body)),
        st.trace ++ [.httpGet ⟨url, headers⟩, .write file res.Body,
          .barAdd res.Body.length]⟩) := by
  have h400 : ¬ res.StatusCode ≥ 400 := by omega
  simp [writeFile, hres, h400, hcopy, State.emit]

theorem writeFile_answered (env : Env) (url file : String) (headers : Headers) (st : State)
    (hans : Answers env url) :
    ∃ st1 added, writeFile env url file headers st = (.returned, st1) ∧
      st1.trace = st.trace ++ added ∧ requestsOf added = [⟨url, headers⟩] := by
  obtain ⟨res, hres, hstatus, hcopy⟩ := hans headers
  exact ⟨_, _, writeFile_ok env url file headers st res hres hstatus hcopy, rfl,
    by simp [requestsOf]⟩

theorem chunkLoop_answered (env : Env) (url file refer : String) (hans : Answers env url)
    (n : Nat) :
    ∀ (start : Int) (st : State), InInt64 start →
    ∃ st1 added, chunkLoop env url file refer n start st = (.returned, st1) ∧
      st1.trace = st.trace ++ added ∧
      requestsOf added = (List.range n).map (fun (i : Nat) =>
        (⟨url, ⟨refer, .window (wrap64 (start + (i : Int) * chunkSize))
          (wrap64 (start + (i : Int) * chunkSize + chunkSize - 1))⟩⟩ : Request)) := by
  induction n with
  | zero => intro start st _; exact ⟨st, [], rfl, by simp, by simp [requestsOf]⟩
  | succ n ih =>
    intro start st hstart
    obtain ⟨st1, a1, hw, ht1, hr1⟩ := writeFile_answered env url file
      ⟨refer, .window start (wrap64 (start + chunkSize - 1))⟩ st hans
    obtain ⟨st2, a2, hl, ht2, hr2⟩ := ih (wrap64 (wrap64 (start + chunkSize - 1) + 1)) st1
      (wrap64_inInt64 _)
    refine ⟨st2, a1 ++ a2, ?_, ?_, ?_⟩
    · rw [chunkLoop_succ, hw]; exact hl
    · rw [ht2, ht1, List.append_assoc]
    · rw [requestsOf_append, hr1, hr2, List.range_succ_eq_map, List.map_cons, List.map_map]
      simp only [List.singleton_append, Nat.cast_zero, zero_mul, add_zero,
        wrap64_of_inInt64 hstart]
      congr 1
      apply List.map_congr_left
      intro i _
      simp only [Function.comp, Nat.succ_eq_add_one, Nat.cast_add, Nat.cast_one]
      have e1 : wrap64 (wrap64 (wrap64 (start + chunkSize - 1) + 1) + (i : Int) * chunkSize) =
          wrap64 (start + ((i : Int) + 1) * chunkSize) := by
        rw [chunkSize_eq]; unfold wrap64; omega
      have e2 : wrap64 (wrap64 (wrap64 (start + chunkSize - 1) + 1) + (i : Int) * chunkSize +
          chunkSize - 1) = wrap64 (start + ((i : Int) + 1) * chunkSize + chunkSize - 1) := by
        rw [chunkSize_eq]; unfold wrap64; omega
      rw [e1, e2]

theorem closeAndRename_trace (env : Env) (tempFilePath filePath : String) (st : State) :
    ∃ tail, (closeAndRename env tempFilePath filePath st).2.trace =
        st.trace ++ [.close tempFilePath, .rename tempFilePath filePath] ++ tail ∧
      requestsOf tail = [] := by
  unfold closeAndRename
  by_cases h : env.renameErr tempFilePath filePath = true
  · exact ⟨[.fatal "rename"], by simp [h], by simp [requestsOf]⟩
  · exact ⟨[], by simp [h], by simp [requestsOf]⟩

theorem chunkCount_bounds (S : Int) (h0 : 0 < S) (h1 : S < 2 ^ 63) :
    0 < chunkCount S ∧ (chunkCount S - 1) * chunkSize < S ∧ S ≤ chunkCount S * chunkSize := by
  unfold chunkCount
  rw [Int.tdiv_eq_ediv (by omega) (by decide), Int.tmod_eq_emod (by omega) (by decide),
    chunkSize_eq]
  simp only []
  split
  · rw [wrap64_of_inInt64 (by unfold InInt64; omega)]
    omega
  · omega

theorem FileSize_of_getD_nil (fs : FS) (path : String) (h : (fs path).getD [] = []) :
    (FileSize fs path).1 = 0 := by
  unfold FileSize
  cases hc : fs path with
  | none => rfl
  | some c => rw [hc] at h; simp at h; simp [h]

/-- C8, as stated, fails: for a 25 MiB fragment on a `googlevideo` URL with
nothing downloaded yet, `Save` issues three requests, and the third asks for
the range 20971520-31457279, which is 10 MiB long, not the 5 MiB that
remain. -/
theorem Save_chunked_last_window_is_full_length :
    requestsOf (Save (exampleEnv (fun _ => some ⟨206, [], false⟩))
        ⟨"https://r1.googlevideo.com/v", 26214400, "mp4"⟩ "ref" "t" none emptyState).2.trace =
      [⟨"https://r1.googlevideo.com/v", ⟨"ref", .window 0 10485759⟩⟩,
       ⟨"https://r1.googlevideo.com/v", ⟨"ref", .window 10485760 20971519⟩⟩,
       ⟨"https://r1.googlevideo.com/v", ⟨"ref", .window 20971520 31457279⟩⟩] ∧
    (RangeHeader.window 20971520 31457279).requestedLength = some (10 * 1024 * 1024) ∧
    (RangeHeader.window 20971520 31457279).requestedLength ≠ some (5 * 1024 * 1024) := by
  decide

/-- The requests of a chunked transfer for every `int64` size: for a
fragment of size `S` with `0 < S < 2^63` on a `googlevideo` URL, with
nothing downloaded yet and every request answered, `Save` issues exactly
`n` requests, in ascending order, where `n` is the least number with `S <=
n * 10 MiB`; the `i`-th is `windowRequest i`, whose end is computed in
`int64` and equals `start + 10 MiB - 1` whenever that fits. -/
theorem Save_chunked_windows_int64 (env : Env) (urlData : URLData) (refer fileName : String)
    (bar : Option Int) (st : State)
    (hgv : stringsContains urlData.URL "googlevideo" = true)
    (h0 : 0 < urlData.Size) (h1 : urlData.Size < 2 ^ 63)
    (hans : Answers env urlData.URL)
    (hfinal : st.fs (env.FilePath fileName urlData.Ext) = none)
    (htemp : (st.fs (env.FilePath fileName urlData.Ext ++ ".download")).getD [] = [])
    (hcreate : env.createErr (env.FilePath fileName urlData.Ext ++ ".download") = false) :
    ∃ (n : Nat) (added : List Event),
      (Save env urlData refer fileName bar st).2.trace = st.trace ++ added ∧
      ((n : Int) - 1) * chunkSize < urlData.Size ∧ urlData.Size ≤ (n : Int) * chunkSize ∧
      requestsOf added = (List.range n).map (windowRequest urlData.URL refer) ∧
      (∀ i, i < n → (i : Int) * chunkSize + chunkSize ≤ 2 ^ 63 →
        windowRequest urlData.URL refer i =
          ⟨urlData.URL, ⟨refer, .window (i * chunkSize) (i * chunkSize + chunkSize - 1)⟩⟩ ∧
        (windowRequest urlData.URL refer i).headers.Range.requestedLength =
          some (10 * 1024 * 1024)) ∧
      (urlData.Size = 25 * 1024 * 1024 →
        requestsOf added =
          [⟨urlData.URL, ⟨refer, .window 0 10485759⟩⟩,
           ⟨urlData.URL, ⟨refer, .window 10485760 20971519⟩⟩,
           ⟨urlData.URL, ⟨refer, .window 20971520 31457279⟩⟩]) := by
  have htsz := FileSize_of_getD_nil st.fs _ htemp
  have hnpos : ¬ (FileSize st.fs (env.FilePath fileName urlData.Ext ++ ".download")).1 > 0 := by
    rw [htsz]; decide
  have hso := saveOpen_eq_ready env urlData refer fileName bar st
    (by intro c hc; rw [hfinal] at hc; cases hc)
    (by intro h; exact absurd h hnpos) (fun _ => hcreate)
  rw [htsz] at hso
  simp only [gt_iff_lt, lt_self_iff_false, if_false] at hso
  obtain ⟨hcpos, hclo, hchi⟩ := chunkCount_bounds urlData.Size h0 h1
  obtain ⟨st2, mid, hloop, htr, hreq⟩ := chunkLoop_answered env urlData.URL
    (env.FilePath fileName urlData.Ext ++ ".download") refer hans (chunkCount urlData.Size).toNat
    0 ⟨FS.set st.fs (env.FilePath fileName urlData.Ext ++ ".download") (some []),
      st.trace ++ openPrelude env urlData fileName bar st ++
        [.create (env.FilePath fileName urlData.Ext ++ ".download")]⟩
    (by unfold InInt64; omega)
  obtain ⟨tail, htail, htailreq⟩ := closeAndRename_trace env
    (env.FilePath fileName urlData.Ext ++ ".download") (env.FilePath fileName urlData.Ext) st2
  have hn : ((chunkCount urlData.Size).toNat : Int) = chunkCount urlData.Size :=
    Int.toNat_of_nonneg (by omega)
  have hsave : (Save env urlData refer fileName bar st).2.trace =
      st.trace ++ (openPrelude env urlData fileName bar st ++
        [.create (env.FilePath fileName urlData.Ext ++ ".download")] ++ mid ++
        [.close (env.FilePath fileName urlData.Ext ++ ".download"),
         .rename (env.FilePath fileName urlData.Ext ++ ".download")
           (env.FilePath fileName urlData.Ext)] ++ tail) := by
    unfold Save
    rw [hso]
    simp only []
    unfold transfer
    rw [if_pos hgv]
    simp only [gt_iff_lt, lt_self_iff_false, if_false]
    rw [hloop]
    simp only []
    rw [htail, htr]
    simp only [List.append_assoc]
  have hreqs : requestsOf (openPrelude env urlData fileName bar st ++
        [.create (env.FilePath fileName urlData.Ext ++ ".download")] ++ mid ++
        [.close (env.FilePath fileName urlData.Ext ++ ".download"),
         .rename (env.FilePath fileName urlData.Ext ++ ".download")
           (env.FilePath fileName urlData.Ext)] ++ tail) =
      (List.range (chunkCount urlData.Size).toNat).map (windowRequest urlData.URL refer) := by
    simp only [requestsOf_append, htailreq, hreq,
      requestsOf_of_isConsole _ (openPrelude_isConsole env urlData fileName bar st)]
    simp only [requestsOf, List.filterMap_cons, List.filterMap_nil, List.nil_append,
      List.append_nil]
    apply List.map_congr_left
    intro i hi
    have hi1 : (i : Int) < chunkCount urlData.Size := by
      have := List.mem_range.1 hi
      omega
    have hi2 : (i : Int) * chunkSize < 2 ^ 63 := by
      rw [chunkSize_eq] at hclo ⊢
      omega
    have hin : InInt64 ((i : Int) * chunkSize) := by
      unfold InInt64; rw [chunkSize_eq] at hi2 ⊢; omega
    unfold windowRequest
    rw [zero_add, wrap64_of_inInt64 hin]
  refine ⟨(chunkCount urlData.Size).toNat, _, hsave, by rw [hn]; exact hclo,
    by rw [hn]; exact hchi, hreqs, ?_, ?_⟩
  · intro i _ hfit
    have hw : wrap64 ((i : Int) * chunkSize + chunkSize - 1) =
        (i : Int) * chunkSize + chunkSize - 1 :=
      wrap64_of_inInt64 (by unfold InInt64; rw [chunkSize_eq] at hfit ⊢; omega)
    constructor
    · unfold windowRequest; rw [hw]
    · unfold windowRequest
      simp only [RangeHeader.requestedLength, hw]
      rw [chunkSize_eq]
      refine congrArg some ?_
      omega
  · intro h25
    rw [hreqs]
    have hn3 : (chunkCount urlData.Size).toNat = 3 := by
      rw [chunkSize_eq] at hclo hchi
      omega
    rw [hn3]
    simp [List.range_succ, windowRequest, chunkSize_eq, wrap64]

/-! ## Resume and chunk-split: the content of the file -/

theorem Serves.answers {env : Env} {url : String} {C : List Nat} (h : Serves env url C) :
    Answers env url := by
  intro headers
  refine ⟨_, h headers, ?_, ?_⟩
  · cases headers.Range <;> simp [rangeServer]
  · cases headers.Range <;> simp [rangeServer]

theorem rangeServer_status (C : List Nat) (r : RangeHeader) : (rangeServer C r).StatusCode < 400 := by
  cases r <;> simp [rangeServer]

theorem rangeServer_copyErr (C : List Nat) (r : RangeHeader) : (rangeServer C r).copyErr = false := by
  cases r <;> simp [rangeServer]

theorem take_append_window (C : List Nat) (start : Nat) :
    C.take start ++ (C.drop start).take
      (min ((start : Int) + chunkSize - 1) ((C.length : Int) - 1) + 1 - start).toNat =
    C.take (start + 10485760) := by
  rw [← List.take_add, chunkSize_eq]
  by_cases h : start + 10485760 ≤ C.length
  · congr 1
    omega
  · rw [List.take_of_length_le (by omega), List.take_of_length_le (by omega)]

theorem FS.set_same (fs : FS) (path : String) (c : Option (List Nat)) :
    (fs.set path c) path = c := by
  simp [FS.set]

theorem FS.set_other (fs : FS) (path p : String) (c : Option (List Nat)) (h : p ≠ path) :
    (fs.set path c) p = fs p := by
  simp [FS.set, h]

theorem chunkLoop_serves (env : Env) (url file refer : String) (C : List Nat)
    (hs : Serves env url C) (n : Nat) :
    ∀ (start : Nat) (st : State), st.fs file = some (C.take start) →
      (start : Int) + n * chunkSize < 2 ^ 63 →
      ∃ st1, chunkLoop env url file refer n start st = (.returned, st1) ∧
        st1.fs file = some (C.take (start + n * 10485760)) ∧
        ∀ p, p ≠ file → st1.fs p = st.fs p := by
  induction n with
  | zero => intro start st hfs _; exact ⟨st, rfl, by simpa using hfs, fun _ _ => rfl⟩
  | succ n ih =>
    intro start st hfs hb
    have hb1 : (start : Int) + chunkSize + n * chunkSize < 2 ^ 63 := by
      push_cast at hb; rw [chunkSize_eq] at hb ⊢; omega
    have hstop : wrap64 ((start : Int) + chunkSize - 1) = (start : Int) + chunkSize - 1 := by
      apply wrap64_of_inInt64; unfold InInt64; rw [chunkSize_eq] at hb1 ⊢; omega
    have hnext : wrap64 ((start : Int) + chunkSize - 1 + 1) = ((start + 10485760 : Nat) : Int) := by
      rw [wrap64_of_inInt64 (by unfold InInt64; rw [chunkSize_eq] at hb1 ⊢; omega), chunkSize_eq]
      push_cast; omega
    have hw := writeFile_ok env url file ⟨refer, .window start ((start : Int) + chunkSize - 1)⟩ st
      _ (hs _) (rangeServer_status _ _) (rangeServer_copyErr _ _)
    obtain ⟨st1, hl, hf1, ho1⟩ := ih (start + 10485760)
      ⟨st.fs.set file (some ((st.fs file).getD [] ++
          (rangeServer C (.window start ((start : Int) + chunkSize - 1))).Body)),
        st.trace ++ [.httpGet ⟨url, ⟨refer, .window start ((start : Int) + chunkSize - 1)⟩⟩,
          .write file (rangeServer C (.window start ((start : Int) + chunkSize - 1))).Body,
          .barAdd (rangeServer C (.window start ((start : Int) + chunkSize - 1))).Body.length]⟩
      (by
        simp only [FS.set_same, hfs, Option.getD_some, rangeServer, Int.toNat_ofNat]
        rw [take_append_window])
      (by push_cast; rw [chunkSize_eq] at hb1 ⊢; omega)
    refine ⟨st1, ?_, ?_, ?_⟩
    · rw [chunkLoop_succ, hstop, hw]
      simp only []
      rw [hnext]
      exact hl
    · have e : start + 10485760 + n * 10485760 = start + (n + 1) * 10485760 := by omega
      rw [hf1, e]
    · intro p hp
      rw [ho1 p hp]
      exact FS.set_other _ _ _ _ hp

theorem append_download_ne (p : String) : p ≠ p ++ ".download" := by
  intro h
  have := congrArg String.length h
  simp [String.length_append] at this
  have h2 : (".download" : String).length = 9 := by decide
  omega

theorem FileSize_of_getD_take (fs : FS) (path : String) (C : List Nat) (L : Nat)
    (hL : L ≤ C.length) (h : (fs path).getD [] = C.take L) :
    (FileSize fs path).1 = (L : Int) ∧ (0 < L → fs path = some (C.take L)) := by
  unfold FileSize
  cases hc : fs path with
  | none =>
    rw [hc] at h
    have hlen := congrArg List.length h
    simp only [Option.getD_none, List.length_nil, List.length_take] at hlen
    have hL0 : L = 0 := by omega
    subst hL0
    exact ⟨rfl, fun h0 => absurd h0 (lt_irrefl 0)⟩
  | some c =>
    rw [hc] at h
    simp only [Option.getD_some] at h
    subst h
    refine ⟨?_, fun _ => rfl⟩
    simp only [List.length_take]
    congr 1
    omega

theorem saveOpen_resume (env : Env) (urlData : URLData) (refer fileName : String)
    (bar : Option Int) (st : State) (C : List Nat) (L : Nat) (hL : L ≤ C.length)
    (htemp : (st.fs (env.FilePath fileName urlData.Ext ++ ".download")).getD [] = C.take L)
    (hfinal : ∀ content, st.fs (env.FilePath fileName urlData.Ext) = some content →
      (content.length : Int) ≠ urlData.Size ∧
      removeNewlines (env.stdin (env.FilePath fileName urlData.Ext)) = "y")
    (hopen : env.openErr (env.FilePath fileName urlData.Ext ++ ".download") = false)
    (hcreate : env.createErr (env.FilePath fileName urlData.Ext ++ ".download") = false) :
    ∃ st1 pre, saveOpen env urlData refer fileName bar st =
        .ready (env.FilePath fileName urlData.Ext)
          (env.FilePath fileName urlData.Ext ++ ".download")
          ⟨refer, if 0 < L then .suffix L else .absent⟩ L st1 ∧
      st1.fs (env.FilePath fileName urlData.Ext ++ ".download") = some (C.take L) ∧
      (∀ p, p ≠ env.FilePath fileName urlData.Ext ++ ".download" → st1.fs p = st.fs p) ∧
      st1.trace = st.trace ++ pre ∧ requestsOf pre = [] := by
  obtain ⟨hsz, hsome⟩ := FileSize_of_getD_take st.fs _ C L hL htemp
  have hso := saveOpen_eq_ready env urlData refer fileName bar st hfinal
    (fun _ => hopen) (fun _ => hcreate)
  rw [hsz] at hso
  by_cases h0 : 0 < L
  · have h0i : (L : Int) > 0 := by omega
    simp only [h0i, if_true] at hso
    refine ⟨⟨st.fs, st.trace ++ openPrelude env urlData fileName bar st ++
        [.openAppend (env.FilePath fileName urlData.Ext ++ ".download"), .barAdd L]⟩,
      openPrelude env urlData fileName bar st ++
        [.openAppend (env.FilePath fileName urlData.Ext ++ ".download"), .barAdd L],
      ?_, ?_, ?_, ?_, ?_⟩
    · simp only [h0, if_true]; exact hso
    · exact hsome h0
    · intro p _; rfl
    · simp only [List.append_assoc]
    · rw [requestsOf_append, requestsOf_of_isConsole _ (openPrelude_isConsole _ _ _ _ _)]
      simp [requestsOf]
  · have h0i : ¬ (L : Int) > 0 := by omega
    have hL0 : L = 0 := by omega
    simp only [h0i, if_false] at hso
    refine ⟨⟨st.fs.set (env.FilePath fileName urlData.Ext ++ ".download") (some []),
        st.trace ++ openPrelude env urlData fileName bar st ++
        [.create (env.FilePath fileName urlData.Ext ++ ".download")]⟩,
      openPrelude env urlData fileName bar st ++
        [.create (env.FilePath fileName urlData.Ext ++ ".download")],
      ?_, ?_, ?_, ?_, ?_⟩
    · simp only [h0, if_false]; exact hso
    · subst hL0; simp [FS.set]
    · intro p hp; exact FS.set_other _ _ _ _ hp
    · simp only [List.append_assoc]
    · rw [requestsOf_append, requestsOf_of_isConsole _ (openPrelude_isConsole _ _ _ _ _)]
      simp [requestsOf]

theorem Save_chunked_content (env : Env) (C : List Nat) (L : Nat) (urlData : URLData)
    (refer fileName : String) (bar : Option Int) (st : State)
    (hgv : stringsContains urlData.URL "googlevideo" = true)
    (hsize : urlData.Size = C.length) (hL : L < C.length)
    (hbound : (C.length : Int) + chunkSize ≤ 2 ^ 63)
    (hs : Serves env urlData.URL C)
    (htemp : (st.fs (env.FilePath fileName urlData.Ext ++ ".download")).getD [] = C.take L)
    (hfinal : ∀ content, st.fs (env.FilePath fileName urlData.Ext) = some content →
      (content.length : Int) ≠ urlData.Size ∧
      removeNewlines (env.stdin (env.FilePath fileName urlData.Ext)) = "y")
    (hopen : env.openErr (env.FilePath fileName urlData.Ext ++ ".download") = false)
    (hcreate : env.createErr (env.FilePath fileName urlData.Ext ++ ".download") = false)
    (hrename : env.renameErr (env.FilePath fileName urlData.Ext ++ ".download")
      (env.FilePath fileName urlData.Ext) = false) :
    (Save env urlData refer fileName bar st).1 = .returned ∧
    (Save env urlData refer fileName bar st).2.fs (env.FilePath fileName urlData.Ext) = some C ∧
    (Save env urlData refer fileName bar st).2.fs
      (env.FilePath fileName urlData.Ext ++ ".download") = none ∧
    ∃ added, (Save env urlData refer fileName bar st).2.trace = st.trace ++ added ∧
      (requestsOf added).head? =
        some ⟨urlData.URL, ⟨refer, .window L ((L : Int) + chunkSize - 1)⟩⟩ := by
  obtain ⟨st1, pre, hso, hfs1, -, htr1, hpre⟩ := saveOpen_resume env urlData refer fileName bar
    st C L (le_of_lt hL) htemp hfinal hopen hcreate
  rw [chunkSize_eq] at hbound
  have hrem : (0 : Int) < urlData.Size - L ∧ urlData.Size - (L : Int) < 2 ^ 63 := by
    omega
  obtain ⟨hcpos, hclo, hchi⟩ := chunkCount_bounds (urlData.Size - L) hrem.1 hrem.2
  rw [chunkSize_eq] at hclo hchi
  have hn : (((chunkCount (urlData.Size - L)).toNat : Nat) : Int) = chunkCount (urlData.Size - L) :=
    Int.toNat_of_nonneg (by omega)
  have hstart : (if (L : Int) > 0 then (L : Int) else 0) = (L : Int) := by
    split <;> omega
  have hremaining : (if (L : Int) > 0 then wrap64 (urlData.Size - L) else urlData.Size) =
      urlData.Size - L := by
    split
    · exact wrap64_of_inInt64 (by unfold InInt64; omega)
    · omega
  obtain ⟨st2, hloop, hfs2, -⟩ := chunkLoop_serves env urlData.URL
    (env.FilePath fileName urlData.Ext ++ ".download") refer C hs
    (chunkCount (urlData.Size - L)).toNat L st1 hfs1
    (by rw [hn, chunkSize_eq]; omega)
  obtain ⟨st2', mid, hloop', htr2, hreq⟩ := chunkLoop_answered env urlData.URL
    (env.FilePath fileName urlData.Ext ++ ".download") refer hs.answers
    (chunkCount (urlData.Size - L)).toNat L st1 (by unfold InInt64; omega)
  rw [hloop] at hloop'
  cases hloop'
  have hfull : C.take (L + (chunkCount (urlData.Size - L)).toNat * 10485760) = C := by
    apply List.take_of_length_le
    omega
  rw [hfull] at hfs2
  have hsave : Save env urlData refer fileName bar st =
      (.returned, ⟨(st2.fs.set (env.FilePath fileName urlData.Ext)
          (st2.fs (env.FilePath fileName urlData.Ext ++ ".download"))).set
          (env.FilePath fileName urlData.Ext ++ ".download") none,
        st2.trace ++ [.close (env.FilePath fileName urlData.Ext ++ ".download"),
          .rename (env.FilePath fileName urlData.Ext ++ ".download")
            (env.FilePath fileName urlData.Ext)]⟩) := by
    unfold Save
    rw [hso]
    simp only []
    unfold transfer
    rw [if_pos hgv]
    simp only []
    rw [hstart, hremaining, hloop]
    simp only [closeAndRename, hrename, State.emit]
    rfl
  rw [hsave]
  refine ⟨rfl, ?_, ?_, ?_⟩
  · simp only []
    rw [FS.set_other _ _ _ _ (append_download_ne _), FS.set_same, hfs2]
  · simp only []
    rw [FS.set_same]
  · refine ⟨pre ++ mid ++ [.close (env.FilePath fileName urlData.Ext ++ ".download"),
          .rename (env.FilePath fileName urlData.Ext ++ ".download")
            (env.FilePath fileName urlData.Ext)], ?_, ?_⟩
    · simp only [htr2, htr1, List.append_assoc]
    · rw [requestsOf_append, requestsOf_append, hpre, hreq]
      obtain ⟨k, hk⟩ : ∃ k, (chunkCount (urlData.Size - L)).toNat = k + 1 :=
        ⟨(chunkCount (urlData.Size - L)).toNat - 1, by omega⟩
      rw [hk, List.range_succ_eq_map]
      simp only [List.nil_append, List.map_cons, List.cons_append, List.head?_cons,
        Nat.cast_zero, zero_mul, add_zero]
      rw [wrap64_of_inInt64 (by unfold InInt64; omega),
        wrap64_of_inInt64 (by unfold InInt64; rw [chunkSize_eq]; omega)]

theorem Save_single_content (env : Env) (C : List Nat) (L : Nat) (urlData : URLData)
    (refer fileName : String) (bar : Option Int) (st : State)
    (hsingle : stringsContains urlData.URL "googlevideo" = false)
    (hL : L ≤ C.length)
    (hs : Serves env urlData.URL C)
    (htemp : (st.fs (env.FilePath fileName urlData.Ext ++ ".download")).getD [] = C.take L)
    (hfinal : ∀ content, st.fs (env.FilePath fileName urlData.Ext) = some content →
      (content.length : Int) ≠ urlData.Size ∧
      removeNewlines (env.stdin (env.FilePath fileName urlData.Ext)) = "y")
    (hopen : env.openErr (env.FilePath fileName urlData.Ext ++ ".download") = false)
    (hcreate : env.createErr (env.FilePath fileName urlData.Ext ++ ".download") = false)
    (hrename : env.renameErr (env.FilePath fileName urlData.Ext ++ ".download")
      (env.FilePath fileName urlData.Ext) = false) :
    (Save env urlData refer fileName bar st).1 = .returned ∧
    (Save env urlData refer fileName bar st).2.fs (env.FilePath fileName urlData.Ext) = some C ∧
    (Save env urlData refer fileName bar st).2.fs
      (env.FilePath fileName urlData.Ext ++ ".download") = none ∧
    ∃ added, (Save env urlData refer fileName bar st).2.trace = st.trace ++ added ∧
      requestsOf added =
        [⟨urlData.URL, ⟨refer, if 0 < L then .suffix L else .absent⟩⟩] := by
  obtain ⟨st1, pre, hso, hfs1, -, htr1, hpre⟩ := saveOpen_resume env urlData refer fileName bar
    st C L hL htemp hfinal hopen hcreate
  have hw := writeFile_ok env urlData.URL (env.FilePath fileName urlData.Ext ++ ".download")
    ⟨refer, if 0 < L then .suffix L else .absent⟩ st1 _ (hs _)
    (rangeServer_status _ _) (rangeServer_copyErr _ _)
  have hbody : (st1.fs (env.FilePath fileName urlData.Ext ++ ".download")).getD [] ++
      (rangeServer C (if 0 < L then .suffix L else .absent)).Body = C := by
    rw [hfs1]
    by_cases h0 : 0 < L
    · simp [h0, rangeServer]
    · have : L = 0 := by omega
      subst this
      simp [rangeServer]
  simp only [hbody] at hw
  have hsave : Save env urlData refer fileName bar st =
      (.returned, ⟨((st1.fs.set (env.FilePath fileName urlData.Ext ++ ".download") (some C)).set
          (env.FilePath fileName urlData.Ext) (some C)).set
          (env.FilePath fileName urlData.Ext ++ ".download") none,
        st1.trace ++ [.httpGet ⟨urlData.URL, ⟨refer, if 0 < L then .suffix L else .absent⟩⟩,
          .write (env.FilePath fileName urlData.Ext ++ ".download")
            (rangeServer C (if 0 < L then .suffix L else .absent)).Body,
          .barAdd (rangeServer C (if 0 < L then .suffix L else .absent)).Body.length] ++
          [.close (env.FilePath fileName urlData.Ext ++ ".download"),
          .rename (env.FilePath fileName urlData.Ext ++ ".download")
            (env.FilePath fileName urlData.Ext)]⟩) := by
    unfold Save
    rw [hso]
    simp only []
    unfold transfer
    rw [hsingle]
    simp only [Bool.false_eq_true, if_false]
    rw [hw]
    simp only [closeAndRename, hrename, State.emit, FS.set_same]
    rfl
  rw [hsave]
  refine ⟨rfl, ?_, ?_, ?_⟩
  · simp only []
    rw [FS.set_other _ _ _ _ (append_download_ne _), FS.set_same]
  · simp only []
    rw [FS.set_same]
  · refine ⟨pre ++ [.httpGet ⟨urlData.URL, ⟨refer, if 0 < L then .suffix L else .absent⟩⟩,
          .write (env.FilePath fileName urlData.Ext ++ ".download")
            (rangeServer C (if 0 < L then .suffix L else .absent)).Body,
          .barAdd (rangeServer C (if 0 < L then .suffix L else .absent)).Body.length] ++
          [.close (env.FilePath fileName urlData.Ext ++ ".download"),
          .rename (env.FilePath fileName urlData.Ext ++ ".download")
            (env.FilePath fileName urlData.Ext)], ?_, ?_⟩
    · simp only [htr1, List.append_assoc]
    · rw [requestsOf_append, requestsOf_append, hpre]
      simp [requestsOf]

theorem Save_chunked_overflow (env : Env) (C : List Nat) (L : Nat) (urlData : URLData)
    (refer fileName : String) (bar : Option Int) (st : State)
    (hgv : stringsContains urlData.URL "googlevideo" = true)
    (hsize : urlData.Size = C.length) (hLS : L < C.length)
    (hS : (C.length : Int) < 2 ^ 63)
    (hone : (C.length : Int) - L ≤ chunkSize)
    (hover : (2 : Int) ^ 63 < (L : Int) + chunkSize)
    (hs : Serves env urlData.URL C)
    (htemp : (st.fs (env.FilePath fileName urlData.Ext ++ ".download")).getD [] = C.take L)
    (hfinal : ∀ content, st.fs (env.FilePath fileName urlData.Ext) = some content →
      (content.length : Int) ≠ urlData.Size ∧
      removeNewlines (env.stdin (env.FilePath fileName urlData.Ext)) = "y")
    (hopen : env.openErr (env.FilePath fileName urlData.Ext ++ ".download") = false)
    (hcreate : env.createErr (env.FilePath fileName urlData.Ext ++ ".download") = false)
    (hrename : env.renameErr (env.FilePath fileName urlData.Ext ++ ".download")
      (env.FilePath fileName urlData.Ext) = false) :
    (Save env urlData refer fileName bar st).1 = .returned ∧
    (Save env urlData refer fileName bar st).2.fs (env.FilePath fileName urlData.Ext) =
      some (C.take L) := by
  obtain ⟨st1, pre, hso, hfs1, -, -, -⟩ := saveOpen_resume env urlData refer fileName bar
    st C L (le_of_lt hLS) htemp hfinal hopen hcreate
  rw [chunkSize_eq] at hone hover
  have hrem : (0 : Int) < urlData.Size - L ∧ urlData.Size - (L : Int) < 2 ^ 63 := by omega
  obtain ⟨hcpos, hclo, hchi⟩ := chunkCount_bounds (urlData.Size - L) hrem.1 hrem.2
  rw [chunkSize_eq] at hclo hchi
  have hn : (chunkCount (urlData.Size - L)).toNat = 1 := by omega
  have hstart : (if (L : Int) > 0 then (L : Int) else 0) = (L : Int) := by
    split <;> omega
  have hremaining : (if (L : Int) > 0 then wrap64 (urlData.Size - L) else urlData.Size) =
      urlData.Size - L := by
    split
    · exact wrap64_of_inInt64 (by unfold InInt64; omega)
    · omega
  have hstop : wrap64 ((L : Int) + chunkSize - 1) = (L : Int) + 10485760 - 1 - 2 ^ 64 := by
    rw [chunkSize_eq]; unfold wrap64; omega
  have hw := writeFile_ok env urlData.URL (env.FilePath fileName urlData.Ext ++ ".download")
    ⟨refer, .window L ((L : Int) + 10485760 - 1 - 2 ^ 64)⟩ st1 _ (hs _)
    (rangeServer_status _ _) (rangeServer_copyErr _ _)
  have hbody : (rangeServer C (.window L ((L : Int) + 10485760 - 1 - 2 ^ 64))).Body = [] := by
    simp only [rangeServer]
    have : (min ((L : Int) + 10485760 - 1 - 2 ^ 64) ((C.length : Int) - 1) + 1 - L).toNat = 0 := by
      omega
    rw [this, List.take_zero]
  simp only [hbody, hfs1, Option.getD_some, List.append_nil] at hw
  have hsave : Save env urlData refer fileName bar st =
      (.returned, ⟨((st1.fs.set (env.FilePath fileName urlData.Ext ++ ".download")
          (some (C.take L))).set
          (env.FilePath fileName urlData.Ext) (some (C.take L))).set
          (env.FilePath fileName urlData.Ext ++ ".download") none,
        st1.trace ++ [.httpGet ⟨urlData.URL,
            ⟨refer, .window L ((L : Int) + 10485760 - 1 - 2 ^ 64)⟩⟩,
          .write (env.FilePath fileName urlData.Ext ++ ".download") [],
          .barAdd ((([] : List Nat).length : Nat) : Int)] ++
          [.close (env.FilePath fileName urlData.Ext ++ ".download"),
          .rename (env.FilePath fileName urlData.Ext ++ ".download")
            (env.FilePath fileName urlData.Ext)]⟩) := by
    unfold Save
    rw [hso]
    simp only []
    unfold transfer
    rw [if_pos hgv]
    simp only []
    rw [hstart, hremaining, hn, chunkLoop_succ, hstop, hw]
    simp only [chunkLoop, closeAndRename, hrename, State.emit, FS.set_same]
    rfl
  rw [hsave]
  refine ⟨rfl, ?_⟩
  simp only []
  rw [FS.set_other _ _ _ _ (append_download_ne _), FS.set_same]

theorem hugeContent_length : hugeContent.length = 9223372036854775807 := by
  rw [hugeContent, List.length_replicate]

/-- C2, as stated, fails for sizes within 10 MiB of `2^63`: with `S = 2^63 -
1` and `L = 2^63 - 2` the end of the one window, `L + 10 MiB - 1`, overflows
`int64`; the range asked for is empty, the file is renamed one byte short
and differs from the content, while the single-request path delivers it. -/
theorem Save_chunked_differs_near_int64_max :
    (Save hugeEnv ⟨"https://r1.googlevideo.com/v", 9223372036854775807, "mp4"⟩ "ref" "t" none
      hugeState).2.fs "t.mp4" ≠ some hugeContent ∧
    (Save hugeEnv ⟨"http://host/v", 9223372036854775807, "mp4"⟩ "ref" "t" none
      hugeState).2.fs "t.mp4" = some hugeContent := by
  have e1 : hugeEnv.FilePath "t"
      (URLData.mk "https://r1.googlevideo.com/v" 9223372036854775807 "mp4").Ext = "t.mp4" := by
    decide
  have e2 : hugeEnv.FilePath "t"
      (URLData.mk "http://host/v" 9223372036854775807 "mp4").Ext = "t.mp4" := by
    decide
  have htemp : ∀ ext, ext = "mp4" →
      (hugeState.fs (hugeEnv.FilePath "t" ext ++ ".download")).getD [] =
      hugeContent.take 9223372036854775806 := by
    intro ext hext
    subst hext
    have hp : hugeEnv.FilePath "t" "mp4" ++ ".download" = "t.mp4.download" := by decide
    rw [hp, hugeState]
    simp only [FS.set_same, Option.getD_some]
  have hfinal : ∀ ext, ext = "mp4" → ∀ content,
      hugeState.fs (hugeEnv.FilePath "t" ext) = some content →
      (content.length : Int) ≠ 9223372036854775807 ∧
      removeNewlines (hugeEnv.stdin (hugeEnv.FilePath "t" ext)) = "y" := by
    intro ext hext content hc
    subst hext
    have hp : hugeEnv.FilePath "t" "mp4" = "t.mp4" := by decide
    rw [hp, hugeState] at hc
    simp only [] at hc
    rw [FS.set_other (fun _ => none) "t.mp4.download" "t.mp4" _ (by decide)] at hc
    cases hc
  constructor
  · have h := (Save_chunked_overflow hugeEnv hugeContent 9223372036854775806
      ⟨"https://r1.googlevideo.com/v", 9223372036854775807, "mp4"⟩ "ref" "t" none hugeState
      (by decide) (by rw [hugeContent_length]; norm_num) (by rw [hugeContent_length]; omega)
      (by rw [hugeContent_length]; norm_num)
      (by rw [hugeContent_length, chunkSize_eq]; norm_num)
      (by rw [chunkSize_eq]; norm_num)
      (fun _ => rfl) (htemp _ rfl) (hfinal _ rfl) rfl rfl rfl).2
    have h2 := Eq.mp (congrArg (fun p => (Save hugeEnv
        ⟨"https://r1.googlevideo.com/v", 9223372036854775807, "mp4"⟩ "ref" "t" none
        hugeState).2.fs p = some (hugeContent.take 9223372036854775806)) e1) h
    rw [h2]
    intro heq
    have hlen := congrArg (fun o : Option (List Nat) => (o.getD []).length) heq
    simp only [Option.getD_some, List.length_take, hugeContent_length] at hlen
    omega
  · have h := (Save_single_content hugeEnv hugeContent 9223372036854775806
      ⟨"http://host/v", 9223372036854775807, "mp4"⟩ "ref" "t" none hugeState
      (by decide) (by rw [hugeContent_length]; omega)
      (fun _ => rfl) (htemp _ rfl) (hfinal _ rfl) rfl rfl rfl).2.1
    exact Eq.mp (congrArg (fun p => (Save hugeEnv
      ⟨"http://host/v", 9223372036854775807, "mp4"⟩ "ref" "t" none
      hugeState).2.fs p = some hugeContent) e2) h

/-- C2, amended: let the remote content be a byte sequence `C` of length
`S` with `S + 10 MiB <= 2^63` (so that no window end overflows `int64`),
served as the specification says, and let the temp file hold `C[0..L)` with
`0 <= L < S`. Then `Save` on a `googlevideo` URL issues its first request
with the range `bytes=L-(L+10MiB-1)`, starting exactly at `L`, returns, and
leaves under the final path a file whose content is `C`; `Save` on a URL of
the single-request path leaves the same content `C` there. -/
theorem Save_chunked_resume_matches_single (env : Env) (C : List Nat) (L : Nat)
    (chunkedURL singleURL ext refer fileName : String) (bar : Option Int) (st : State)
    (hgv : stringsContains chunkedURL "googlevideo" = true)
    (hsingle : stringsContains singleURL "googlevideo" = false)
    (hL : L < C.length)
    (hbound : (C.length : Int) + chunkSize ≤ 2 ^ 63)
    (hsc : Serves env chunkedURL C) (hss : Serves env singleURL C)
    (htemp : (st.fs (env.FilePath fileName ext ++ ".download")).getD [] = C.take L)
    (hfinal : ∀ content, st.fs (env.FilePath fileName ext) = some content →
      (content.length : Int) ≠ C.length ∧
      removeNewlines (env.stdin (env.FilePath fileName ext)) = "y")
    (hopen : env.openErr (env.FilePath fileName ext ++ ".download") = false)
    (hcreate : env.createErr (env.FilePath fileName ext ++ ".download") = false)
    (hrename : env.renameErr (env.FilePath fileName ext ++ ".download")
      (env.FilePath fileName ext) = false) :
    (∃ added,
      (Save env ⟨chunkedURL, C.length, ext⟩ refer fileName bar st).2.trace = st.trace ++ added ∧
      (requestsOf added).head? =
        some ⟨chunkedURL, ⟨refer, .window L ((L : Int) + chunkSize - 1)⟩⟩) ∧
    (Save env ⟨chunkedURL, C.length, ext⟩ refer fileName bar st).1 = .returned ∧
    (Save env ⟨chunkedURL, C.length, ext⟩ refer fileName bar st).2.fs
      (env.FilePath fileName ext) = some C ∧
    (Save env ⟨singleURL, C.length, ext⟩ refer fileName bar st).1 = .returned ∧
    (Save env ⟨singleURL, C.length, ext⟩ refer fileName bar st).2.fs
      (env.FilePath fileName ext) = some C ∧
    (Save env ⟨chunkedURL, C.length, ext⟩ refer fileName bar st).2.fs
      (env.FilePath fileName ext) =
    (Save env ⟨singleURL, C.length, ext⟩ refer fileName bar st).2.fs
      (env.FilePath fileName ext) := by
  obtain ⟨c1, c2, -, c4⟩ := Save_chunked_content env C L ⟨chunkedURL, C.length, ext⟩ refer
    fileName bar st hgv rfl hL hbound hsc htemp hfinal hopen hcreate hrename
  obtain ⟨s1, s2, -, -⟩ := Save_single_content env C L ⟨singleURL, C.length, ext⟩ refer
    fileName bar st hsingle (le_of_lt hL) hss htemp hfinal hopen hcreate hrename
  exact ⟨c4, c1, c2, s1, s2, c2.trans s2.symm⟩

/-- Witness of C2 (amended): five bytes of content, two of them already in
the temp file. -/
theorem Save_chunked_resume_matches_single_witness :
    (Save (exampleEnv (fun r => some (rangeServer [1, 2, 3, 4, 5] r.headers.Range)))
      ⟨"https://r1.googlevideo.com/v", 5, "mp4"⟩ "ref" "t" none
      ⟨FS.set (fun _ => none) "t.mp4.download" (some [1, 2]), []⟩).2.fs "t.mp4" =
      some [1, 2, 3, 4, 5] ∧
    (Save (exampleEnv (fun r => some (rangeServer [1, 2, 3, 4, 5] r.headers.Range)))
      ⟨"http://host/v", 5, "mp4"⟩ "ref" "t" none
      ⟨FS.set (fun _ => none) "t.mp4.download" (some [1, 2]), []⟩).2.fs "t.mp4" =
      some [1, 2, 3, 4, 5] :=
  have h := Save_chunked_resume_matches_single
    (exampleEnv (fun r => some (rangeServer [1, 2, 3, 4, 5] r.headers.Range)))
    [1, 2, 3, 4, 5] 2 "https://r1.googlevideo.com/v" "http://host/v" "mp4" "ref" "t" none
    ⟨FS.set (fun _ => none) "t.mp4.download" (some [1, 2]), []⟩
    (by decide) (by decide) (by decide) (by decide) (fun _ => rfl) (fun _ => rfl)
    (by decide) (by intro c hc; simp [FS.set, exampleEnv] at hc) rfl rfl rfl
  ⟨h.2.2.1, h.2.2.2.2.1⟩

/-! ## What `Save` and the fan-out add to the trace -/

theorem isSave_of_isFetch {e : Event} (h : e.isFetch = true) : e.isSave = true := by
  simp [Event.isSave, h]

theorem isSave_of_isConsole {e : Event} (h : e.isConsole = true) : e.isSave = true := by
  simp [Event.isSave, h]

theorem isSave_prelude (size : Int) (bar : Option Int) :
    ∀ e ∈ (if bar.isNone = true then [Event.barNew size, Event.barStart] else []),
      e.isSave = true := by
  intro e he
  cases bar <;> simp at he
  rcases he with h | h <;> subst h <;> rfl

theorem isSave_prompt (c : Bool) (text : String) :
    ∀ e ∈ (if c = true then [Event.print text, Event.readLine] else []), e.isSave = true := by
  intro e he
  cases c <;> simp at he
  rcases he with h | h <;> subst h <;> rfl

theorem SaveExtends.refl (st : State) : SaveExtends st st := ⟨[], by simp, by simp⟩

theorem SaveExtends.emit {st st1 : State} (h : SaveExtends st st1) (es : List Event)
    (hes : ∀ e ∈ es, e.isSave = true) : SaveExtends st (st1.emit es) := by
  obtain ⟨added, h1, h2⟩ := h
  refine ⟨added ++ es, by simp only [State.emit_trace, h1, List.append_assoc], ?_⟩
  intro e he
  rcases List.mem_append.1 he with h | h
  · exact h2 e h
  · exact hes e h

theorem saveOpen_done (env : Env) (urlData : URLData) (refer fileName : String)
    (bar : Option Int) (st : State) (r : Outcome × State)
    (h : saveOpen env urlData refer fileName bar st = .done r) :
    SaveExtends st r.2 := by
  simp only [saveOpen] at h
  have e1 := (SaveExtends.refl st).emit _ (isSave_prelude urlData.Size bar)
  split at h
  · cases h
    exact e1.emit _ (by intro e he; simp at he; rcases he with h1 | h1 <;> subst h1 <;> rfl)
  · have e2 := e1.emit _ (isSave_prompt ((FileSize st.fs (env.FilePath fileName urlData.Ext)).2 &&
      (FileSize st.fs (env.FilePath fileName urlData.Ext)).1 != urlData.Size)
      (env.FilePath fileName urlData.Ext ++ ": file already exists, overwriting? [y/n]"))
    split at h
    · cases h
      exact e2
    · simp only [State.emit_fs] at h
      by_cases c3 : (FileSize st.fs (env.FilePath fileName urlData.Ext ++ ".download")).1 > 0
      · rw [if_pos c3] at h
        by_cases c4 : env.openErr (env.FilePath fileName urlData.Ext ++ ".download") = true
        · rw [if_pos c4] at h
          cases h
          exact (e2.emit _ (by intro e he; simp at he; rcases he with h1 | h1 <;> subst h1 <;> rfl)).emit
            _ (by intro e he; simp at he; subst he; rfl)
        · rw [if_neg c4] at h
          cases h
      · rw [if_neg c3] at h
        by_cases c4 : env.createErr (env.FilePath fileName urlData.Ext ++ ".download") = true
        · rw [if_pos c4] at h
          cases h
          exact (e2.emit _ (by intro e he; simp at he; subst he; rfl)).emit
            _ (by intro e he; simp at he; subst he; rfl)
        · rw [if_neg c4] at h
          cases h

theorem SaveExtends.trans {st st1 st2 : State} (h1 : SaveExtends st st1)
    (h2 : SaveExtends st1 st2) : SaveExtends st st2 := by
  obtain ⟨a1, e1, p1⟩ := h1
  obtain ⟨a2, e2, p2⟩ := h2
  refine ⟨a1 ++ a2, by rw [e2, e1, List.append_assoc], ?_⟩
  intro e he
  rcases List.mem_append.1 he with h | h
  · exact p1 e h
  · exact p2 e h

theorem transfer_extends (env : Env) (urlData : URLData) (file : String) (headers : Headers)
    (tempFileSize : Int) (st : State) :
    SaveExtends st (transfer env urlData file headers tempFileSize st).2 := by
  obtain ⟨mid, h1, h2⟩ := transfer_trace env urlData file headers tempFileSize st
  exact ⟨mid, h1, fun e he => isSave_of_isFetch (h2 e he)⟩

theorem closeAndRename_extends (env : Env) (tempFilePath filePath : String) (st : State) :
    SaveExtends st (closeAndRename env tempFilePath filePath st).2 := by
  unfold closeAndRename
  have e1 := (SaveExtends.refl st).emit [.close tempFilePath, .rename tempFilePath filePath]
    (by intro e he; simp at he; rcases he with h1 | h1 <;> subst h1 <;> rfl)
  split
  · exact e1.emit _ (by intro e he; simp at he; subst he; rfl)
  · exact e1

theorem Save_trace (env : Env) (urlData : URLData) (refer fileName : String)
    (bar : Option Int) (st : State) :
    SaveExtends st (Save env urlData refer fileName bar st).2 := by
  unfold Save
  cases hso : saveOpen env urlData refer fileName bar st with
  | done r => exact saveOpen_done env urlData refer fileName bar st r hso
  | ready filePath tempFilePath headers tempFileSize st1 =>
    obtain ⟨-, -, -, -, -, htr1⟩ := saveOpen_ready env urlData refer fileName bar st
      filePath tempFilePath headers tempFileSize st1 hso
    have hpre : SaveExtends st st1 := by
      refine ⟨_, by rw [htr1, List.append_assoc], ?_⟩
      intro e he
      rcases List.mem_append.1 he with h | h
      · exact isSave_of_isConsole (openPrelude_isConsole env urlData fileName bar st e h)
      · split at h <;> simp at h
        · rcases h with h | h <;> subst h <;> rfl
        · subst h; rfl
    have htx := transfer_extends env urlData tempFilePath headers tempFileSize st1
    simp only []
    cases htf : transfer env urlData tempFilePath headers tempFileSize st1 with
    | mk o st2 =>
      rw [htf] at htx
      cases o with
      | exited => exact hpre.trans htx
      | returned => exact (hpre.trans htx).trans (closeAndRename_extends _ _ _ _)

theorem runSaves_trace (env : Env) (refer title : String) (bar : Int) (urls : List URLData)
    (order : List Nat) :
    ∀ st, SaveExtends st (runSaves env refer title bar urls order st).2 := by
  induction order with
  | nil => intro st; exact SaveExtends.refl st
  | cons index rest ih =>
    intro st
    unfold runSaves
    cases hu : urls.get? index with
    | none => exact ih st
    | some url =>
      simp only []
      have h1 := Save_trace env url refer (partFileName title index) (some bar) st
      cases hs : Save env url refer (partFileName title index) (some bar) st with
      | mk o st1 =>
        rw [hs] at h1
        cases o with
        | exited => exact h1
        | returned => exact h1.trans (ih st1)

theorem textWritesOf_append (path : String) (a b : List Event) :
    textWritesOf path (a ++ b) = textWritesOf path a ++ textWritesOf path b := by
  simp [textWritesOf, List.filterMap_append]

theorem textWritesOf_of_isSave (path : String) (es : List Event)
    (h : ∀ e ∈ es, e.isSave = true) : textWritesOf path es = [] := by
  induction es with
  | nil => rfl
  | cons e es ih =>
    have he := h e (List.mem_cons_self _ _)
    have ih1 := ih (fun x hx => h x (List.mem_cons_of_mem _ hx))
    have h1 : textWritesOf path [e] = [] := by
      cases e <;> first
        | rfl
        | (simp [Event.isSave, Event.isFetch, Event.isConsole] at he)
    show textWritesOf path ([e] ++ es) = []
    rw [textWritesOf_append, h1, ih1, List.append_nil]

theorem SaveExtends.textWritesOf {st st1 : State} (h : SaveExtends st st1) (path : String) :
    textWritesOf path st1.trace = textWritesOf path st.trace := by
  obtain ⟨added, h1, h2⟩ := h
  rw [h1, textWritesOf_append, textWritesOf_of_isSave path added h2, List.append_nil]

/-! ## The merge step: the manifest -/

theorem genSortedStep_fields (v : VideoData) (e : String × FormatData) :
    (genSortedStep v e).Site = v.Site ∧ (genSortedStep v e).Title = v.Title ∧
    (genSortedStep v e).Type_ = v.Type_ := ⟨rfl, rfl, rfl⟩

theorem foldl_genSortedStep_fields (es : List (String × FormatData)) :
    ∀ v : VideoData, (es.foldl genSortedStep v).Site = v.Site ∧
      (es.foldl genSortedStep v).Title = v.Title ∧
      (es.foldl genSortedStep v).Type_ = v.Type_ := by
  induction es with
  | nil => intro v; exact ⟨rfl, rfl, rfl⟩
  | cons e es ih =>
    intro v
    simp only [List.foldl_cons]
    obtain ⟨h1, h2, h3⟩ := ih (genSortedStep v e)
    exact ⟨h1, h2, h3⟩

theorem genSortedFormats_fields (rt : Runtime) (v v1 : VideoData)
    (h : genSortedFormats rt v = some v1) :
    v1.Site = v.Site ∧ v1.Title = v.Title ∧ v1.Type_ = v.Type_ := by
  unfold genSortedFormats at h
  split at h
  · cases h; exact ⟨rfl, rfl, rfl⟩
  · simp only [] at h
    split at h
    · cases h
    · cases h
      exact foldl_genSortedStep_fields _ v

theorem writeManifest_fold_trace (m : String) (parts : List String) :
    ∀ st : State, (parts.foldl (fun (st : State) part =>
      ({ fs := st.fs.set m (some ((st.fs m).getD [] ++ utf8Bytes (manifestLine part))),
         trace := st.trace ++ [.writeText m (manifestLine part)] } : State)) st).trace =
      st.trace ++ parts.map (fun part => Event.writeText m (manifestLine part)) := by
  induction parts with
  | nil => intro st; simp
  | cons p ps ih => intro st; simp only [List.foldl_cons, ih, List.map_cons]; simp

theorem remove_fold_trace (paths : List String) :
    ∀ st : State, (paths.foldl (fun (st : State) path =>
      ({ fs := st.fs.set path none, trace := st.trace ++ [.remove path] } : State)) st).trace =
      st.trace ++ paths.map Event.remove := by
  induction paths with
  | nil => intro st; simp
  | cons p ps ih => intro st; simp only [List.foldl_cons, ih, List.map_cons]; simp

theorem textWritesOf_map_writeText (m : String) (parts : List String) :
    textWritesOf m (parts.map (fun part => Event.writeText m (manifestLine part))) =
      parts.map manifestLine := by
  induction parts with
  | nil => rfl
  | cons p ps ih =>
    simp only [List.map_cons]
    show textWritesOf m ([Event.writeText m (manifestLine p)] ++ _) = _
    rw [textWritesOf_append, ih]
    simp [textWritesOf]

theorem textWritesOf_map_remove (m : String) (paths : List String) :
    textWritesOf m (paths.map Event.remove) = [] := by
  induction paths with
  | nil => rfl
  | cons p ps ih =>
    simp only [List.map_cons]
    show textWritesOf m ([Event.remove p] ++ _) = _
    rw [textWritesOf_append, ih]
    rfl

theorem partPaths_length (env : Env) (title : String) (urls : List URLData) :
    (partPaths env title urls).length = urls.length := by
  simp [partPaths]

theorem partPaths_getElem? (env : Env) (title : String) (urls : List URLData) (i : Nat) :
    (partPaths env title urls)[i]? =
      urls[i]?.map (fun url => env.FilePath (partFileName title i) url.Ext) := by
  simp only [partPaths, List.getElem?_map, List.getElem?_enum, Option.map_map]
  rfl

/-! ## The merge step: when ffmpeg runs -/

theorem runSaves_nil (env : Env) (refer title : String) (bar : Int) (order : List Nat)
    (st : State) : runSaves env refer title bar [] order st = (.returned, st) := by
  induction order with
  | nil => rfl
  | cons i rest ih => simp [runSaves, ih]

theorem execsOf_append (a b : List Event) : execsOf (a ++ b) = execsOf a ++ execsOf b := by
  simp [execsOf, List.filterMap_append]

theorem execsOf_map_remove (paths : List String) : execsOf (paths.map Event.remove) = [] := by
  induction paths with
  | nil => rfl
  | cons p ps ih =>
    simp only [List.map_cons]
    show execsOf ([Event.remove p] ++ _) = _
    rw [execsOf_append, ih]
    rfl

/-- C5 (the code at the failing input): a video whose selected format has
no fragment at all. For every environment, `Download` fetches nothing and
still starts ffmpeg, with the concatenation arguments and an empty
manifest. -/
theorem Download_runs_ffmpeg_without_fragments (rt : Runtime) (env : Env) (order : List Nat)
    (refer : String) :
    execsOf (Download rt env ⟨false, "", "", false, 1⟩ order
      ⟨"iqiyi", "t", "video", [("default", ⟨[], "", 0, ""⟩)], []⟩ refer emptyState).2.trace =
      [("ffmpeg", concatArgs "t.txt" (env.FilePath "t" "mp4"))] ∧
    requestsOf (Download rt env ⟨false, "", "", false, 1⟩ order
      ⟨"iqiyi", "t", "video", [("default", ⟨[], "", 0, ""⟩)], []⟩ refer emptyState).2.trace =
      [] := by
  have hgen : genSortedFormats rt ⟨"iqiyi", "t", "video", [("default", ⟨[], "", 0, ""⟩)], []⟩ =
      some ⟨"iqiyi", "t", "video", [("default", ⟨[], "", 0, "default"⟩)],
        [⟨[], "", 0, "default"⟩]⟩ := rfl
  have hsite : stringsContains "iqiyi" "youtube" = false := by decide
  unfold Download
  rw [hgen]
  simp only [Bool.false_eq_true, if_false, if_true, mapLookup, FileSize, emptyState,
    State.emit_fs, List.length_nil, Nat.zero_ne_one, runSaves_nil, ne_eq, not_true_eq_false,
    merge, hsite, State.emit_trace, partPaths, List.enum_nil, List.map_nil, writeManifest]
  by_cases hc : env.createErr ("t" ++ ".txt") = true
  · simp only [hc, if_true, State.emit_trace, State.emit_fs]
    split <;> simp [execsOf, requestsOf, State.emit]
  · simp only [hc, if_false, State.emit_trace, State.emit_fs, List.foldl_nil]
    split <;> simp [execsOf, requestsOf, State.emit]

/-! ## The format normalizer -/

theorem Runtime.reference_valid : Runtime.reference.Valid := by
  constructor
  · intro m; exact List.Perm.refl _
  · intro l
    haveI : IsTotal FormatData (fun a b => a.Size ≥ b.Size) := ⟨fun a b => le_total _ _⟩
    haveI : IsTrans FormatData (fun a b => a.Size ≥ b.Size) :=
      ⟨fun a b c hab hbc => le_trans hbc hab⟩
    refine ⟨List.perm_insertionSort _ l, ?_⟩
    have hs := List.sorted_insertionSort (fun a b : FormatData => a.Size ≥ b.Size) l
    refine List.Pairwise.imp ?_ hs
    intro a b hab
    simp only [Less, decide_eq_false_iff_not, not_lt, gt_iff_lt]
    exact hab

theorem normalized_name (e : String × FormatData) : (normalized e).name = e.1 := rfl

theorem normalized_size (e : String × FormatData) : (normalized e).Size = derivedSize e.2 := by
  unfold normalized derivedSize
  split <;> rfl

theorem normalized_urls (e : String × FormatData) : (normalized e).URLs = e.2.URLs := by
  unfold normalized calculateTotalSize
  split <;> rfl

theorem normalized_quality (e : String × FormatData) :
    (normalized e).Quality = e.2.Quality := by
  unfold normalized calculateTotalSize
  split <;> rfl

theorem foldl_genSortedStep_sorted (es : List (String × FormatData)) :
    ∀ v : VideoData, (es.foldl genSortedStep v).sortedFormats =
      v.sortedFormats ++ es.map normalized := by
  induction es with
  | nil => intro v; simp
  | cons e es ih =>
    intro v
    simp only [List.foldl_cons, ih, List.map_cons]
    simp [genSortedStep, normalized]

theorem mapLookup_mapDelete_self (m : FormatMap) (k : String) :
    mapLookup (mapDelete m k) k = none := by
  induction m with
  | nil => rfl
  | cons e m ih =>
    obtain ⟨k1, d⟩ := e
    unfold mapDelete at ih ⊢
    by_cases h : k1 = k
    · rw [List.filter_cons]
      simp only [ne_eq, h, not_true_eq_false, decide_False, Bool.false_eq_true, if_false]
      exact ih
    · rw [List.filter_cons]
      simp only [ne_eq, h, not_false_eq_true, decide_True, if_true, mapLookup, if_false]
      exact ih

/-- The multi-format path of `genSortedFormats`, spelled out: the sorted
list is a sorted permutation of the normalized entries, and its head gives
the key that is deleted. -/
theorem genSortedFormats_multi (rt : Runtime) (hrt : rt.Valid) (v : VideoData)
    (hlen : v.Formats.length ≠ 1) (hne : v.Formats ≠ []) (hempty : v.sortedFormats = []) :
    ∃ best rest,
      rt.sortSort ((rt.mapOrder v.Formats).map normalized) = best :: rest ∧
      (best :: rest).Perm (v.Formats.map normalized) ∧
      (∀ x ∈ rest, x.Size ≤ best.Size) ∧
      (best :: rest).Pairwise (fun a b => b.Size ≤ a.Size) ∧
      genSortedFormats rt v =
        some { ((rt.mapOrder v.Formats).foldl genSortedStep v) with
          Formats := mapDelete (mapStore ((rt.mapOrder v.Formats).foldl genSortedStep v).Formats
            "default" { best with name := "default" }) best.name,
          sortedFormats := { best with name := "default" } :: rest } := by
  obtain ⟨hperm, hsort⟩ := hrt
  have hp : (rt.sortSort ((rt.mapOrder v.Formats).map normalized)).Perm
      (v.Formats.map normalized) :=
    ((hsort _).1).trans ((hperm v.Formats).map normalized)
  have hpw : (rt.sortSort ((rt.mapOrder v.Formats).map normalized)).Pairwise
      (fun a b => b.Size ≤ a.Size) := by
    refine List.Pairwise.imp ?_ (hsort _).2
    intro a b hab
    simpa [Less] using hab
  cases hs : rt.sortSort ((rt.mapOrder v.Formats).map normalized) with
  | nil =>
    rw [hs] at hp
    have := hp.length_eq
    simp only [List.length_nil, List.length_map] at this
    exact absurd (List.length_eq_zero.1 this.symm) hne
  | cons best rest =>
    rw [hs] at hp hpw
    refine ⟨best, rest, rfl, hp, ?_, hpw, ?_⟩
    · intro x hx
      exact (List.pairwise_cons.1 hpw).1 x hx
    · unfold genSortedFormats
      rw [if_neg hlen]
      simp only [foldl_genSortedStep_sorted, hempty, List.nil_append, hs]

/-- C1 (the code on the failing inputs): for every admissible runtime and
every map of at least two formats in which a key `default` is present and
every format under another key is strictly smaller than the formats under
`default`, `genSortedFormats` returns a mapping that has no entry with key
`default` at all: the best format is stored under `default` and then
deleted under its old name, which is `default`. -/
theorem genSortedFormats_deletes_default (rt : Runtime) (hrt : rt.Valid) (v : VideoData)
    (d0 : FormatData)
    (hlen : 2 ≤ v.Formats.length) (hempty : v.sortedFormats = [])
    (hdefault : ("default", d0) ∈ v.Formats)
    (hbest : ∀ e ∈ v.Formats, e.1 ≠ "default" → derivedSize e.2 < derivedSize d0) :
    ∃ v1, genSortedFormats rt v = some v1 ∧ mapLookup v1.Formats "default" = none := by
  have hne : v.Formats ≠ [] := by intro h; rw [h] at hlen; simp at hlen
  obtain ⟨best, rest, -, hperm, hmax, -, hgen⟩ :=
    genSortedFormats_multi rt hrt v (by omega) hne hempty
  have hname : best.name = "default" := by
    have hbmem : best ∈ v.Formats.map normalized := hperm.subset (List.mem_cons_self _ _)
    obtain ⟨e, he, heq⟩ := List.mem_map.1 hbmem
    by_contra hn
    have hek : e.1 ≠ "default" := by rw [← heq, normalized_name] at hn; exact hn
    have hlt := hbest e he hek
    have hd0mem : normalized ("default", d0) ∈ best :: rest :=
      hperm.symm.subset (List.mem_map.2 ⟨_, hdefault, rfl⟩)
    have hsz : (normalized ("default", d0)).Size ≤ best.Size := by
      rcases List.mem_cons.1 hd0mem with h | h
      · rw [h]
      · exact hmax _ h
    rw [normalized_size, ← heq, normalized_size] at hsz
    simp only [] at hsz
    omega
  refine ⟨_, hgen, ?_⟩
  simp only [hname]
  exact mapLookup_mapDelete_self _ _

/-- Witness of C1: the map that `genData` of the youku extractor builds
loses its `default` entry. -/
theorem genSortedFormats_deletes_default_witness :
    youkuFormats = some
      [("flvhd", ⟨[⟨"http://a/2.mp4?vid=1", 50, "mp4"⟩], "flvhd 640x360", 50, ""⟩),
       ("default", ⟨[⟨"http://a/1.mp4?vid=1", 100, "mp4"⟩], "mp4hd 1280x720", 100, ""⟩)] ∧
    ∃ v1, genSortedFormats Runtime.reference ⟨"youku", "t", "video",
        [("flvhd", ⟨[⟨"http://a/2.mp4?vid=1", 50, "mp4"⟩], "flvhd 640x360", 50, ""⟩),
         ("default", ⟨[⟨"http://a/1.mp4?vid=1", 100, "mp4"⟩], "mp4hd 1280x720", 100, ""⟩)], []⟩ = some v1 ∧
      mapLookup v1.Formats "default" = none :=
  ⟨by decide,
   genSortedFormats_deletes_default Runtime.reference Runtime.reference_valid
    ⟨"youku", "t", "video",
      [("flvhd", ⟨[⟨"http://a/2.mp4?vid=1", 50, "mp4"⟩], "flvhd 640x360", 50, ""⟩),
       ("default", ⟨[⟨"http://a/1.mp4?vid=1", 100, "mp4"⟩], "mp4hd 1280x720", 100, ""⟩)], []⟩
    ⟨[⟨"http://a/1.mp4?vid=1", 100, "mp4"⟩], "mp4hd 1280x720", 100, ""⟩
    (by decide) rfl (by decide) (by decide)⟩

theorem mapLookup_mapStore_self (m : FormatMap) (k : String) (d : FormatData) :
    mapLookup (mapStore m k d) k = some d := by
  induction m with
  | nil => simp [mapStore, mapLookup]
  | cons e m ih =>
    obtain ⟨k1, d1⟩ := e
    by_cases h : k1 = k
    · simp [mapStore, mapLookup, h]
    · simp [mapStore, mapLookup, h, ih]

theorem mapLookup_mapDelete_ne (m : FormatMap) (k k2 : String) (h : k2 ≠ k) :
    mapLookup (mapDelete m k) k2 = mapLookup m k2 := by
  induction m with
  | nil => rfl
  | cons e m ih =>
    obtain ⟨k1, d⟩ := e
    unfold mapDelete at ih ⊢
    by_cases h1 : k1 = k
    · rw [List.filter_cons]
      simp only [ne_eq, h1, not_true_eq_false, decide_False, Bool.false_eq_true, if_false,
        mapLookup, if_neg (Ne.symm h)]
      exact ih
    · rw [List.filter_cons]
      simp only [ne_eq, h1, not_false_eq_true, decide_True, if_true, mapLookup]
      rw [ih]

/-- For a map of at least two formats none of which is stored under
`default`, `genSortedFormats` leaves under `default` a format whose size is
the largest derived size of the input, and which is one of the input
formats. -/
theorem genSortedFormats_default_is_largest (rt : Runtime) (hrt : rt.Valid) (v : VideoData)
    (hlen : 2 ≤ v.Formats.length) (hempty : v.sortedFormats = [])
    (hkeys : ∀ e ∈ v.Formats, e.1 ≠ "default") :
    ∃ v1 b, genSortedFormats rt v = some v1 ∧ mapLookup v1.Formats "default" = some b ∧
      (∀ e ∈ v.Formats, derivedSize e.2 ≤ b.Size) ∧
      ∃ e ∈ v.Formats, b.Size = derivedSize e.2 ∧ b.URLs = e.2.URLs ∧
        b.Quality = e.2.Quality := by
  have hne : v.Formats ≠ [] := by intro h; rw [h] at hlen; simp at hlen
  obtain ⟨best, rest, -, hperm, hmax, -, hgen⟩ :=
    genSortedFormats_multi rt hrt v (by omega) hne hempty
  have hbmem : best ∈ v.Formats.map normalized := hperm.subset (List.mem_cons_self _ _)
  obtain ⟨e0, he0, heq⟩ := List.mem_map.1 hbmem
  have hname : best.name ≠ "default" := by
    rw [← heq, normalized_name]; exact hkeys e0 he0
  refine ⟨_, { best with name := "default" }, hgen, ?_, ?_, e0, he0, ?_, ?_, ?_⟩
  · simp only []
    rw [mapLookup_mapDelete_ne _ _ _ (Ne.symm hname), mapLookup_mapStore_self]
  · intro e he
    have hmem : normalized e ∈ best :: rest :=
      hperm.symm.subset (List.mem_map.2 ⟨_, he, rfl⟩)
    have hsz : (normalized e).Size ≤ best.Size := by
      rcases List.mem_cons.1 hmem with h | h
      · rw [h]
      · exact hmax _ h
    rw [normalized_size] at hsz
    exact hsz
  · simp only [← heq, normalized_size]
  · simp only [← heq, normalized_urls]
  · simp only [← heq, normalized_quality]

/-- For a map of at least two formats, the list `sortedFormats` that
`genSortedFormats` builds from an empty one has as many elements as the
map, is in non-increasing order of `Size`, and is a rearrangement of the
input formats, each with its fragment list, quality label and derived
size. -/
theorem genSortedFormats_list_of_many (rt : Runtime) (hrt : rt.Valid) (v : VideoData)
    (hlen : 2 ≤ v.Formats.length) (hempty : v.sortedFormats = []) :
    ∃ v1, genSortedFormats rt v = some v1 ∧
      v1.sortedFormats.length = v.Formats.length ∧
      v1.sortedFormats.Pairwise (fun a b => b.Size ≤ a.Size) ∧
      (v1.sortedFormats.map (fun x => (x.URLs, x.Quality, x.Size))).Perm
        (v.Formats.map (fun e => (e.2.URLs, e.2.Quality, derivedSize e.2))) := by
  have hne : v.Formats ≠ [] := by intro h; rw [h] at hlen; simp at hlen
  obtain ⟨best, rest, -, hperm, -, hpw, hgen⟩ :=
    genSortedFormats_multi rt hrt v (by omega) hne hempty
  refine ⟨_, hgen, ?_, ?_, ?_⟩
  · simpa using hperm.length_eq
  · simp only []
    rw [List.pairwise_cons] at hpw ⊢
    exact ⟨hpw.1, hpw.2⟩
  · simp only []
    have h1 := hperm.map (fun x : FormatData => (x.URLs, x.Quality, x.Size))
    simp only [List.map_cons, List.map_map] at h1 ⊢
    refine h1.trans (List.Perm.of_eq ?_)
    apply List.map_congr_left
    intro e _
    simp only [Function.comp, normalized_urls, normalized_quality, normalized_size]

/-- C3 (the code on the failing inputs): a map that holds one format under
a key other than `default`. `genSortedFormats` reads `Formats["default"]`,
which is absent: the map afterwards has two entries, the input format still
under its key and a new `default` entry that is the zero value with its
name set, with no fragment and no quality label. -/
theorem genSortedFormats_single_under_other_key (rt : Runtime) (site title type_ k : String)
    (d : FormatData) (sorted : List FormatData) (hk : k ≠ "default") :
    genSortedFormats rt ⟨site, title, type_, [(k, d)], sorted⟩ =
      some ⟨site, title, type_, [(k, d), ("default", ⟨[], "", 0, "default"⟩)],
        sorted ++ [⟨[], "", 0, "default"⟩]⟩ := by
  simp [genSortedFormats, mapIndex, mapLookup, mapStore, hk, FormatData.zero,
    calculateTotalSize]

/-- Witness of C3: one format of two fragments under the key `2`, as the
iqiyi extractor names its formats. -/
theorem genSortedFormats_single_under_other_key_witness :
    genSortedFormats Runtime.reference ⟨"iqiyi", "t", "video",
        [("2", ⟨[⟨"http://a/0.ts", 10, "ts"⟩, ⟨"http://a/1.ts", 20, "ts"⟩], "720p", 30, ""⟩)],
        []⟩ =
      some ⟨"iqiyi", "t", "video",
        [("2", ⟨[⟨"http://a/0.ts", 10, "ts"⟩, ⟨"http://a/1.ts", 20, "ts"⟩], "720p", 30, ""⟩),
         ("default", ⟨[], "", 0, "default"⟩)],
        [] ++ [⟨[], "", 0, "default"⟩]⟩ :=
  genSortedFormats_single_under_other_key Runtime.reference "iqiyi" "t" "video" "2"
    ⟨[⟨"http://a/0.ts", 10, "ts"⟩, ⟨"http://a/1.ts", 20, "ts"⟩], "720p", 30, ""⟩ []
    (by decide)

/-- C7 (the code on the failing inputs): for a map that holds one format
under a key other than `default` and an empty `sortedFormats`, the list
afterwards has one element, the zero value named `default`; when the input
format has fragments, no element of the list carries its fragment list. -/
theorem genSortedFormats_single_list_misses_format (rt : Runtime)
    (site title type_ k : String) (d : FormatData) (hk : k ≠ "default") :
    ∃ v1, genSortedFormats rt ⟨site, title, type_, [(k, d)], []⟩ = some v1 ∧
      v1.sortedFormats = [⟨[], "", 0, "default"⟩] ∧
      (d.URLs ≠ [] → ∀ x ∈ v1.sortedFormats, x.URLs ≠ d.URLs) := by
  refine ⟨⟨site, title, type_, [(k, d), ("default", ⟨[], "", 0, "default"⟩)],
    [⟨[], "", 0, "default"⟩]⟩, ?_, rfl, ?_⟩
  · simp [genSortedFormats, mapIndex, mapLookup, mapStore, hk, FormatData.zero,
      calculateTotalSize]
  · intro hd x hx
    simp only [List.mem_singleton] at hx
    subst hx
    exact fun h => hd h.symm

/-- Witness of C7: one format of two fragments under the key `2`. -/
theorem genSortedFormats_single_list_misses_format_witness :
    ∃ v1, genSortedFormats Runtime.reference ⟨"iqiyi", "t", "video",
        [("2", ⟨[⟨"http://a/0.ts", 10, "ts"⟩, ⟨"http://a/1.ts", 20, "ts"⟩], "720p", 30, ""⟩)],
        []⟩ = some v1 ∧
      v1.sortedFormats = [⟨[], "", 0, "default"⟩] ∧
      ∀ x ∈ v1.sortedFormats,
        x.URLs ≠ [⟨"http://a/0.ts", 10, "ts"⟩, ⟨"http://a/1.ts", 20, "ts"⟩] :=
  let ⟨v1, h1, h2, h3⟩ := genSortedFormats_single_list_misses_format Runtime.reference
    "iqiyi" "t" "video" "2"
    ⟨[⟨"http://a/0.ts", 10, "ts"⟩, ⟨"http://a/1.ts", 20, "ts"⟩], "720p", 30, ""⟩ (by decide)
  ⟨v1, h1, h2, h3 (by decide)⟩

/-! ## The fetch path: what a failed request does -/

theorem writeFile_step (env : Env) (url file : String) (headers : Headers) (st : State) :
    FetchStep env file st (writeFile env url file headers st) := by
  unfold writeFile
  cases hres : env.server ⟨url, headers⟩ with
  | none =>
    refine ⟨[.httpGet ⟨url, headers⟩, .fatal "request"], by simp [State.emit], ?_,
      fun _ _ => rfl, fun h => h, Or.inr ⟨rfl, ⟨url, headers⟩, by simp [requestsOf], ?_⟩⟩
    · intro e he; simp at he; rcases he with h | h <;> subst h <;> rfl
    · rintro ⟨res, h, -⟩; rw [hres] at h; cases h
  | some res =>
    by_cases h1 : res.StatusCode ≥ 400
    · refine ⟨[.httpGet ⟨url, headers⟩, .print url, .fatal "HTTP error"],
        by simp [State.emit, h1], ?_, ?_, ?_, Or.inr ⟨by simp [h1], ⟨url, headers⟩,
          by simp [requestsOf], ?_⟩⟩
      · intro e he; simp at he; rcases he with h | h | h <;> subst h <;> rfl
      · intro p _; simp [h1]
      · intro h; simpa [h1] using h
      · rintro ⟨res2, h, hs, -⟩; rw [hres] at h; cases h; omega
    · by_cases h2 : res.copyErr = true
      · refine ⟨[.httpGet ⟨url, headers⟩, .write file res.Body, .barAdd res.Body.length,
          .fatal "file copy error"], by simp [State.emit, h1, h2], ?_, ?_, ?_,
          Or.inr ⟨by simp [h1, h2], ⟨url, headers⟩, by simp [requestsOf], ?_⟩⟩
        · intro e he; simp at he; rcases he with h | h | h | h <;> subst h <;> rfl
        · intro p hp; simp [h1, h2, State.emit, FS.set, hp]
        · intro _; simp [h1, h2, State.emit, FS.set]
        · rintro ⟨res2, h, -, hc⟩; rw [hres] at h; cases h; rw [h2] at hc; cases hc
      · refine ⟨[.httpGet ⟨url, headers⟩, .write file res.Body, .barAdd res.Body.length],
          by simp [State.emit, h1, h2], ?_, ?_, ?_, Or.inl ⟨by simp [h1, h2], ?_⟩⟩
        · intro e he; simp at he; rcases he with h | h | h <;> subst h <;> rfl
        · intro p hp; simp [h1, h2, State.emit, FS.set, hp]
        · intro _; simp [h1, h2, State.emit, FS.set]
        · intro q hq
          simp [requestsOf] at hq
          subst hq
          exact ⟨res, hres, by omega, by simpa using h2⟩

theorem FetchStep.andThen {env : Env} {file : String} {st st1 : State}
    {r : Outcome × State} (h1 : FetchStep env file st (.returned, st1))
    (h2 : FetchStep env file st1 r) : FetchStep env file st r := by
  obtain ⟨a1, t1, f1, o1, s1, c1⟩ := h1
  obtain ⟨a2, t2, f2, o2, s2, c2⟩ := h2
  have ok1 : ∀ q ∈ requestsOf a1, RequestOk env q := by
    rcases c1 with ⟨-, h⟩ | ⟨h, -⟩
    · exact h
    · cases h
  refine ⟨a1 ++ a2, by rw [t2, t1, List.append_assoc], ?_, ?_, ?_, ?_⟩
  · intro e he
    rcases List.mem_append.1 he with h | h
    · exact f1 e h
    · exact f2 e h
  · intro p hp; rw [o2 p hp, o1 p hp]
  · intro h; exact s2 (s1 h)
  · rcases c2 with ⟨hr, hok⟩ | ⟨hr, q, hq, hbad⟩
    · refine Or.inl ⟨hr, ?_⟩
      intro q hq
      rw [requestsOf_append] at hq
      rcases List.mem_append.1 hq with h | h
      · exact ok1 q h
      · exact hok q h
    · refine Or.inr ⟨hr, q, ?_, hbad⟩
      rw [requestsOf_append]
      exact List.mem_append.2 (Or.inr hq)

theorem FetchStep.idle (env : Env) (file : String) (st : State) :
    FetchStep env file st (.returned, st) :=
  ⟨[], by simp, by simp, fun _ _ => rfl, fun h => h,
    Or.inl ⟨rfl, by simp [requestsOf]⟩⟩

theorem chunkLoop_step (env : Env) (url file refer : String) (n : Nat) :
    ∀ (start : Int) (st : State),
      FetchStep env file st (chunkLoop env url file refer n start st) := by
  induction n with
  | zero => intro start st; exact FetchStep.idle env file st
  | succ n ih =>
    intro start st
    have hw := writeFile_step env url file
      ⟨refer, .window start (wrap64 (start + chunkSize - 1))⟩ st
    rw [chunkLoop_succ]
    cases hr : writeFile env url file ⟨refer, .window start (wrap64 (start + chunkSize - 1))⟩ st with
    | mk o st1 =>
      rw [hr] at hw
      cases o with
      | exited => exact hw
      | returned => exact hw.andThen (ih _ st1)

theorem transfer_step (env : Env) (urlData : URLData) (file : String) (headers : Headers)
    (tempFileSize : Int) (st : State) :
    FetchStep env file st (transfer env urlData file headers tempFileSize st) := by
  unfold transfer
  split
  · exact chunkLoop_step _ _ _ _ _ _ _
  · exact writeFile_step _ _ _ _ _

theorem not_mem_of_isFetch_or_pre (env : Env) (urlData : URLData) (fileName : String)
    (bar : Option Int) (st : State) (tsz : Int) (tp fp : String) (a : List Event)
    (ha : ∀ e ∈ a, e.isFetch = true) :
    Event.close tp ∉ (openPrelude env urlData fileName bar st ++
        (if tsz > 0 then [Event.openAppend tp, Event.barAdd tsz] else [Event.create tp])) ++ a ∧
    Event.rename tp fp ∉ (openPrelude env urlData fileName bar st ++
        (if tsz > 0 then [Event.openAppend tp, Event.barAdd tsz] else [Event.create tp])) ++ a := by
  have key : ∀ e ∈ (openPrelude env urlData fileName bar st ++
        (if tsz > 0 then [Event.openAppend tp, Event.barAdd tsz] else [Event.create tp])) ++ a,
      e ≠ Event.close tp ∧ e ≠ Event.rename tp fp := by
    intro e he
    rcases List.mem_append.1 he with h | h
    · rcases List.mem_append.1 h with h | h
      · have := openPrelude_isConsole env urlData fileName bar st e h
        constructor <;> (intro hc; subst hc; simp [Event.isConsole] at this)
      · split at h <;> simp at h
        · rcases h with h | h <;> subst h <;> simp
        · subst h; simp
    · have := ha e h
      constructor <;> (intro hc; subst hc; simp [Event.isFetch] at this)
  exact ⟨fun h => (key _ h).1 rfl, fun h => (key _ h).2 rfl⟩

theorem requestsOf_pre (env : Env) (urlData : URLData) (fileName : String)
    (bar : Option Int) (st : State) (tsz : Int) (tp : String) :
    requestsOf (openPrelude env urlData fileName bar st ++
        (if tsz > 0 then [Event.openAppend tp, Event.barAdd tsz] else [Event.create tp])) = [] := by
  rw [requestsOf_append, requestsOf_of_isConsole _ (openPrelude_isConsole _ _ _ _ _)]
  split <;> simp [requestsOf]

/-- C10, amended: for every run of `Save` that reaches the transfer (the
final file is absent, or differs in size and the operator answers `y`, and
the temp file can be opened or created), look at the requests the run
makes. If every one of them is answered well (status below 400, body copied
without error), the temp file is closed and then renamed to the final path
as the last steps of `Save`, followed only by the fatal exit of a failing
rename; when the rename succeeds `Save` returns, the temp path is gone and
the final path holds a file. If one of them is not answered well (the
request fails, the status is 400 or more, or the copy fails), the process
has exited: `Save` has neither closed nor renamed the temp file, the temp
file is still there and the final path is as it was before the run. -/
theorem Save_closes_and_renames_iff_fetch_succeeds (env : Env) (urlData : URLData)
    (refer fileName : String) (bar : Option Int) (st : State)
    (hreach : ∀ content, st.fs (env.FilePath fileName urlData.Ext) = some content →
      (content.length : Int) ≠ urlData.Size ∧
      removeNewlines (env.stdin (env.FilePath fileName urlData.Ext)) = "y")
    (hopen : (FileSize st.fs (env.FilePath fileName urlData.Ext ++ ".download")).1 > 0 →
      env.openErr (env.FilePath fileName urlData.Ext ++ ".download") = false)
    (hcreate : ¬ (FileSize st.fs (env.FilePath fileName urlData.Ext ++ ".download")).1 > 0 →
      env.createErr (env.FilePath fileName urlData.Ext ++ ".download") = false) :
    ∃ added, (Save env urlData refer fileName bar st).2.trace = st.trace ++ added ∧
      ((∀ q ∈ requestsOf added, RequestOk env q) →
        (∃ mid, added = mid ++
            [.close (env.FilePath fileName urlData.Ext ++ ".download"),
             .rename (env.FilePath fileName urlData.Ext ++ ".download")
               (env.FilePath fileName urlData.Ext)] ++
            (if env.renameErr (env.FilePath fileName urlData.Ext ++ ".download")
                (env.FilePath fileName urlData.Ext) then [.fatal "rename"] else []) ∧
          Event.close (env.FilePath fileName urlData.Ext ++ ".download") ∉ mid ∧
          Event.rename (env.FilePath fileName urlData.Ext ++ ".download")
            (env.FilePath fileName urlData.Ext) ∉ mid) ∧
        (env.renameErr (env.FilePath fileName urlData.Ext ++ ".download")
            (env.FilePath fileName urlData.Ext) = false →
          (Save env urlData refer fileName bar st).1 = .returned ∧
          (Save env urlData refer fileName bar st).2.fs
            (env.FilePath fileName urlData.Ext ++ ".download") = none ∧
          ((Save env urlData refer fileName bar st).2.fs
            (env.FilePath fileName urlData.Ext)).isSome = true)) ∧
      ((∃ q ∈ requestsOf added, ¬ RequestOk env q) →
        (Save env urlData refer fileName bar st).1 = .exited ∧
        Event.close (env.FilePath fileName urlData.Ext ++ ".download") ∉ added ∧
        Event.rename (env.FilePath fileName urlData.Ext ++ ".download")
          (env.FilePath fileName urlData.Ext) ∉ added ∧
        (Save env urlData refer fileName bar st).2.fs (env.FilePath fileName urlData.Ext) =
          st.fs (env.FilePath fileName urlData.Ext) ∧
        ((Save env urlData refer fileName bar st).2.fs
          (env.FilePath fileName urlData.Ext ++ ".download")).isSome = true) := by
  have hso := saveOpen_eq_ready env urlData refer fileName bar st hreach hopen hcreate
  generalize hfp : env.FilePath fileName urlData.Ext = fp at *
  generalize htp : fp ++ ".download" = tp at *
  have hne : fp ≠ tp := by rw [← htp]; exact append_download_ne fp
  generalize htsz : (FileSize st.fs tp).1 = tsz at *
  generalize hpre : openPrelude env urlData fileName bar st ++
    (if tsz > 0 then [Event.openAppend tp, Event.barAdd tsz] else [Event.create tp]) = pre
  have hpre_req : requestsOf pre = [] := by
    rw [← hpre]; exact requestsOf_pre env urlData fileName bar st tsz tp
  generalize hst1 : (⟨if tsz > 0 then st.fs else st.fs.set tp (some []),
    st.trace ++ openPrelude env urlData fileName bar st ++
      (if tsz > 0 then [Event.openAppend tp, Event.barAdd tsz] else [Event.create tp])⟩ : State)
    = st1 at hso
  have hst1tr : st1.trace = st.trace ++ pre := by
    rw [← hst1, ← hpre, List.append_assoc]
  have hst1fp : st1.fs fp = st.fs fp := by
    rw [← hst1]
    by_cases h : tsz > 0
    · simp [h]
    · simp only [h, if_false]; exact FS.set_other _ _ _ _ hne
  have hst1tp : (st1.fs tp).isSome = true := by
    rw [← hst1]
    by_cases h : tsz > 0
    · simp only [h, if_true]
      rw [← htsz] at h
      unfold FileSize at h
      cases hc : st.fs tp with
      | none => rw [hc] at h; simp at h
      | some c => rfl
    · simp only [h, if_false, FS.set_same]; rfl
  obtain ⟨a, htr, hfetch, hother, hkeep, hcase⟩ := transfer_step env urlData tp
    ⟨refer, if tsz > 0 then .suffix tsz else .absent⟩ tsz st1
  have hnm := not_mem_of_isFetch_or_pre env urlData fileName bar st tsz tp fp a hfetch
  rw [hpre] at hnm
  unfold Save
  rw [hso]
  simp only []
  cases hr : transfer env urlData tp ⟨refer, if tsz > 0 then .suffix tsz else .absent⟩ tsz st1 with
  | mk o st2 =>
    rw [hr] at htr hother hkeep hcase
    simp only [] at htr hother hkeep hcase
    cases o with
    | exited =>
      have hbad : ∃ q ∈ requestsOf a, ¬ RequestOk env q := by
        rcases hcase with ⟨h, -⟩ | ⟨-, h⟩
        · cases h
        · exact h
      refine ⟨pre ++ a, by simp only [htr, hst1tr, List.append_assoc], ?_, ?_⟩
      · intro hall
        obtain ⟨q, hq, hqbad⟩ := hbad
        exact absurd (hall q (by rw [requestsOf_append]; exact List.mem_append.2 (Or.inr hq)))
          hqbad
      · intro _
        refine ⟨rfl, hnm.1, hnm.2, ?_, ?_⟩
        · simp only []; rw [hother fp hne, hst1fp]
        · exact hkeep hst1tp
    | returned =>
      have hok : ∀ q ∈ requestsOf a, RequestOk env q := by
        rcases hcase with ⟨-, h⟩ | ⟨h, -⟩
        · exact h
        · cases h
      refine ⟨pre ++ a ++ [.close tp, .rename tp fp] ++
        (if env.renameErr tp fp then [.fatal "rename"] else []), ?_, ?_, ?_⟩
      · unfold closeAndRename
        by_cases hre : env.renameErr tp fp = true
        · simp [hre, htr, hst1tr, List.append_assoc]
        · simp [hre, htr, hst1tr, List.append_assoc]
      · intro _
        refine ⟨⟨pre ++ a, rfl, hnm.1, hnm.2⟩, ?_⟩
        intro hre
        unfold closeAndRename
        simp only [hre, Bool.false_eq_true, if_false, State.emit_fs]
        refine ⟨trivial, FS.set_same _ _ _, ?_⟩
        rw [FS.set_other _ _ _ _ hne, FS.set_same]
        exact hkeep hst1tp
      · rintro ⟨q, hq, hqbad⟩
        exfalso
        apply hqbad
        apply hok
        rw [requestsOf_append, requestsOf_append, requestsOf_append, hpre_req] at hq
        have e1 : requestsOf [Event.close tp, Event.rename tp fp] = [] := rfl
        have e2 : requestsOf (if env.renameErr tp fp = true then [Event.fatal "rename"]
            else []) = [] := by split <;> rfl
        rw [e1, e2] at hq
        simpa using hq

/-- Witness of C10 (amended): a fresh fetch whose copy fails after two
bytes. The process exits, the temp file stays and no final file appears. -/
theorem Save_closes_and_renames_iff_fetch_succeeds_witness :
    (Save (exampleEnv (fun _ => some ⟨200, [1, 2], true⟩)) ⟨"http://host/v", 3, "mp4"⟩
      "ref" "t" none emptyState).1 = .exited ∧
    (Save (exampleEnv (fun _ => some ⟨200, [1, 2], true⟩)) ⟨"http://host/v", 3, "mp4"⟩
      "ref" "t" none emptyState).2.fs "t.mp4" = none ∧
    ((Save (exampleEnv (fun _ => some ⟨200, [1, 2], true⟩)) ⟨"http://host/v", 3, "mp4"⟩
      "ref" "t" none emptyState).2.fs "t.mp4.download").isSome = true := by
  obtain ⟨added, htr, -, hbad⟩ := Save_closes_and_renames_iff_fetch_succeeds
    (exampleEnv (fun _ => some ⟨200, [1, 2], true⟩)) ⟨"http://host/v", 3, "mp4"⟩
    "ref" "t" none emptyState
    (by intro c hc; simp [emptyState] at hc) (fun _ => rfl) (fun _ => rfl)
  have hadd : added = (Save (exampleEnv (fun _ => some ⟨200, [1, 2], true⟩))
      ⟨"http://host/v", 3, "mp4"⟩ "ref" "t" none emptyState).2.trace := by
    rw [htr]; rfl
  have hreq : requestsOf added = [⟨"http://host/v", ⟨"ref", .absent⟩⟩] := by
    rw [hadd]; decide
  obtain ⟨h1, -, -, h4, h5⟩ := hbad ⟨⟨"http://host/v", ⟨"ref", .absent⟩⟩, by rw [hreq]; simp,
    by
      rintro ⟨res, h, -, hc⟩
      simp only [exampleEnv, Option.some.injEq] at h
      subst h
      cases hc⟩
  exact ⟨h1, h4, h5⟩

/-! ## The chunked transfer: the requested ranges -/

/-- C8, amended: for a fragment of size `S` with `0 < S` and `S + 10 MiB <=
2^63` on a `googlevideo` URL, with nothing downloaded yet (no final file,
the temp file absent or empty and creatable) and every request answered,
`Save` issues exactly `n` requests, in ascending order, where `n` is the
least number with `S <= n * 10 MiB`; the `i`-th request asks for
`bytes=<i*10MiB>-<i*10MiB+10MiB-1>`, so that every requested range, the
last included, is exactly 10 MiB long and none is cut down to the bytes
that remain. For `S` = 25 MiB these are the three requests 0-10485759,
10485760-20971519 and 20971520-31457279. -/
theorem Save_chunked_requests (env : Env) (urlData : URLData) (refer fileName : String)
    (bar : Option Int) (st : State)
    (hgv : stringsContains urlData.URL "googlevideo" = true)
    (h0 : 0 < urlData.Size) (hbound : urlData.Size + chunkSize ≤ 2 ^ 63)
    (hans : Answers env urlData.URL)
    (hfinal : st.fs (env.FilePath fileName urlData.Ext) = none)
    (htemp : (st.fs (env.FilePath fileName urlData.Ext ++ ".download")).getD [] = [])
    (hcreate : env.createErr (env.FilePath fileName urlData.Ext ++ ".download") = false) :
    ∃ (n : Nat) (added : List Event),
      (Save env urlData refer fileName bar st).2.trace = st.trace ++ added ∧
      ((n : Int) - 1) * chunkSize < urlData.Size ∧ urlData.Size ≤ (n : Int) * chunkSize ∧
      requestsOf added = (List.range n).map (fun (i : Nat) =>
        (⟨urlData.URL, ⟨refer, .window ((i : Int) * chunkSize)
          ((i : Int) * chunkSize + chunkSize - 1)⟩⟩ : Request)) ∧
      (∀ q ∈ requestsOf added, q.headers.Range.requestedLength = some (10 * 1024 * 1024)) ∧
      (urlData.Size = 25 * 1024 * 1024 →
        requestsOf added =
          [⟨urlData.URL, ⟨refer, .window 0 10485759⟩⟩,
           ⟨urlData.URL, ⟨refer, .window 10485760 20971519⟩⟩,
           ⟨urlData.URL, ⟨refer, .window 20971520 31457279⟩⟩]) := by
  have h1 : urlData.Size < 2 ^ 63 := by rw [chunkSize_eq] at hbound; omega
  obtain ⟨n, added, htr, hlo, hhi, hreq, hwin, h25⟩ := Save_chunked_windows_int64 env urlData
    refer fileName bar st hgv h0 h1 hans hfinal htemp hcreate
  have hfit : ∀ i, i < n → (i : Int) * chunkSize + chunkSize ≤ 2 ^ 63 := by
    intro i hi
    rw [chunkSize_eq] at hlo hbound ⊢
    omega
  have hreq2 : requestsOf added = (List.range n).map (fun (i : Nat) =>
      (⟨urlData.URL, ⟨refer, .window ((i : Int) * chunkSize)
        ((i : Int) * chunkSize + chunkSize - 1)⟩⟩ : Request)) := by
    rw [hreq]
    apply List.map_congr_left
    intro i hi
    exact (hwin i (List.mem_range.1 hi) (hfit i (List.mem_range.1 hi))).1
  refine ⟨n, added, htr, hlo, hhi, hreq2, ?_, h25⟩
  intro q hq
  rw [hreq] at hq
  obtain ⟨i, hi, rfl⟩ := List.mem_map.1 hq
  exact (hwin i (List.mem_range.1 hi) (hfit i (List.mem_range.1 hi))).2

/-- Witness of C8 (amended): a 25 MiB fragment, every request answered. -/
theorem Save_chunked_requests_witness :
    ∃ added,
      (Save (exampleEnv (fun _ => some ⟨206, [], false⟩))
        ⟨"https://r1.googlevideo.com/v", 26214400, "mp4"⟩ "ref" "t" none emptyState).2.trace =
        emptyState.trace ++ added ∧
      (∀ q ∈ requestsOf added, q.headers.Range.requestedLength = some (10 * 1024 * 1024)) ∧
      requestsOf added =
        [⟨"https://r1.googlevideo.com/v", ⟨"ref", .window 0 10485759⟩⟩,
         ⟨"https://r1.googlevideo.com/v", ⟨"ref", .window 10485760 20971519⟩⟩,
         ⟨"https://r1.googlevideo.com/v", ⟨"ref", .window 20971520 31457279⟩⟩] :=
  let ⟨_, added, h1, _, _, _, h5, h6⟩ :=
    Save_chunked_requests (exampleEnv (fun _ => some ⟨206, [], false⟩))
      ⟨"https://r1.googlevideo.com/v", 26214400, "mp4"⟩ "ref" "t" none emptyState
      (by decide) (by decide) (by decide) (fun _ => ⟨_, rfl, by decide, rfl⟩) rfl rfl rfl
  ⟨added, h1, h5, h6 (by decide)⟩

theorem getLast?_map_range {α : Type} (f : Nat → α) (n : Nat) :
    ((List.range (n + 1)).map f).getLast? = some (f n) := by
  rw [List.range_succ, List.map_append]
  simp

/-- Why the bound on `S`: for `S = 2^63 - 1` the last of the 879609302221
windows starts at 9223372036846387200, and its end, computed in `int64`,
wraps to -9223372036852678657: the request is
`bytes=9223372036846387200--9223372036852678657`. -/
theorem Save_chunked_last_window_wraps_near_int64_max :
    ∃ added,
      (Save (exampleEnv (fun _ => some ⟨206, [], false⟩))
        ⟨"https://r1.googlevideo.com/v", 9223372036854775807, "mp4"⟩ "ref" "t" none
        emptyState).2.trace = emptyState.trace ++ added ∧
      (requestsOf added).length = 879609302221 ∧
      (requestsOf added).getLast? =
        some ⟨"https://r1.googlevideo.com/v",
          ⟨"ref", .window 9223372036846387200 (-9223372036852678657)⟩⟩ := by
  obtain ⟨n, added, htr, hlo, hhi, hreq, -, -⟩ := Save_chunked_windows_int64
    (exampleEnv (fun _ => some ⟨206, [], false⟩))
    ⟨"https://r1.googlevideo.com/v", 9223372036854775807, "mp4"⟩ "ref" "t" none emptyState
    (by decide) (by norm_num) (by norm_num) (fun _ => ⟨_, rfl, by decide, rfl⟩) rfl rfl rfl
  have hn : n = 879609302220 + 1 := by
    rw [chunkSize_eq] at hlo hhi
    simp only [] at hlo hhi
    omega
  refine ⟨added, htr, ?_, ?_⟩
  · rw [hreq, List.length_map, List.length_range, hn]
  · rw [hreq, hn, getLast?_map_range]
    simp only [windowRequest, chunkSize_eq, wrap64]
    norm_num

/-! ## The fan-out returns when nothing fails -/

theorem saveOpen_done_returned (env : Env) (urlData : URLData) (refer fileName : String)
    (bar : Option Int) (st : State) (r : Outcome × State)
    (hopen : ∀ p, env.openErr p = false) (hcreate : ∀ p, env.createErr p = false)
    (h : saveOpen env urlData refer fileName bar st = .done r) : r.1 = .returned := by
  simp only [saveOpen] at h
  split at h
  · cases h; rfl
  · split at h
    · cases h; rfl
    · simp only [State.emit_fs, hopen, hcreate, Bool.false_eq_true, if_false] at h
      by_cases c3 : (FileSize st.fs (env.FilePath fileName urlData.Ext ++ ".download")).1 > 0
      · rw [if_pos c3] at h; cases h
      · rw [if_neg c3] at h; cases h

/-- When no request and no system call fails, `Save` returns. -/
theorem Save_returns (env : Env) (urlData : URLData) (refer fileName : String)
    (bar : Option Int) (st : State)
    (hreq : ∀ q, RequestOk env q)
    (hopen : ∀ p, env.openErr p = false) (hcreate : ∀ p, env.createErr p = false)
    (hrename : ∀ p q, env.renameErr p q = false) :
    (Save env urlData refer fileName bar st).1 = .returned := by
  unfold Save
  cases hso : saveOpen env urlData refer fileName bar st with
  | done r => exact saveOpen_done_returned env urlData refer fileName bar st r hopen hcreate hso
  | ready filePath tempFilePath headers tempFileSize st1 =>
    simp only []
    obtain ⟨a, -, -, -, -, hcase⟩ := transfer_step env urlData tempFilePath headers
      tempFileSize st1
    cases hr : transfer env urlData tempFilePath headers tempFileSize st1 with
    | mk o st2 =>
      rw [hr] at hcase
      cases o with
      | exited =>
        rcases hcase with ⟨h, -⟩ | ⟨-, q, -, hbad⟩
        · cases h
        · exact absurd (hreq q) hbad
      | returned => simp [closeAndRename, hrename]

/-- When no request and no system call fails, the fan-out returns, in
whatever order the fetches run. -/
theorem runSaves_returns (env : Env) (refer title : String) (bar : Int) (urls : List URLData)
    (hreq : ∀ q, RequestOk env q)
    (hopen : ∀ p, env.openErr p = false) (hcreate : ∀ p, env.createErr p = false)
    (hrename : ∀ p q, env.renameErr p q = false) (order : List Nat) :
    ∀ st, (runSaves env refer title bar urls order st).1 = .returned := by
  induction order with
  | nil => intro st; rfl
  | cons index rest ih =>
    intro st
    unfold runSaves
    cases hu : urls.get? index with
    | none => exact ih st
    | some url =>
      simp only []
      have h1 := Save_returns env url refer (partFileName title index) (some bar) st
        hreq hopen hcreate hrename
      cases hs : Save env url refer (partFileName title index) (some bar) st with
      | mk o st1 =>
        rw [hs] at h1
        simp only [] at h1
        subst h1
        exact ih st1

theorem execsOf_of_isSave (es : List Event) (h : ∀ e ∈ es, e.isSave = true) :
    execsOf es = [] := by
  induction es with
  | nil => rfl
  | cons e es ih =>
    have he := h e (List.mem_cons_self _ _)
    have ih1 := ih (fun x hx => h x (List.mem_cons_of_mem _ hx))
    have h1 : execsOf [e] = [] := by
      cases e <;> first
        | rfl
        | (simp [Event.isSave, Event.isFetch, Event.isConsole] at he)
    show execsOf ([e] ++ es) = []
    rw [execsOf_append, h1, ih1, List.append_nil]

theorem SaveExtends.execsOf {st st1 : State} (h : SaveExtends st st1) :
    execsOf st1.trace = execsOf st.trace := by
  obtain ⟨added, h1, h2⟩ := h
  rw [h1, execsOf_append, execsOf_of_isSave added h2, List.append_nil]

/-! ## The merge step: the manifest file -/

theorem FS.set_set (fs : FS) (path : String) (a b : Option (List Nat)) :
    (fs.set path a).set path b = fs.set path b := by
  funext p
  by_cases h : p = path <;> simp [FS.set, h]

theorem writeManifest_fold_fs (m : String) (parts : List String) :
    ∀ (st : State) (c : List Nat), st.fs m = some c →
      (parts.foldl (fun (st : State) part =>
        ({ fs := st.fs.set m (some ((st.fs m).getD [] ++ utf8Bytes (manifestLine part))),
           trace := st.trace ++ [.writeText m (manifestLine part)] } : State)) st).fs =
        st.fs.set m (some (c ++ (parts.map manifestLine).flatMap utf8Bytes)) := by
  induction parts with
  | nil =>
    intro st c h
    funext p
    by_cases hp : p = m <;> simp [FS.set, hp, h]
  | cons q qs ih =>
    intro st c h
    simp only [List.foldl_cons]
    rw [ih _ (c ++ utf8Bytes (manifestLine q)) (by simp [FS.set, h])]
    simp [FS.set_set, h, List.flatMap_cons, List.append_assoc]

theorem remove_fold_fs (paths : List String) :
    ∀ (st : State) (p : String), (paths.foldl (fun (st : State) path =>
      ({ fs := st.fs.set path none, trace := st.trace ++ [.remove path] } : State)) st).fs p =
      if p ∈ paths then none else st.fs p := by
  induction paths with
  | nil => intro st p; simp
  | cons q qs ih =>
    intro st p
    simp only [List.foldl_cons, ih, List.mem_cons]
    by_cases h1 : p ∈ qs
    · simp [h1]
    · by_cases h2 : p = q
      · simp [h1, h2, FS.set]
      · simp [h1, h2, FS.set]

/-- The merge step on a site that uses the concatenation strategy, when the
manifest can be created: the manifest is created, one line per part is
written, it is closed, and ffmpeg runs on a file system in which the
manifest holds exactly those lines. -/
theorem merge_concat (env : Env) (site title : String) (parts : List String) (st : State)
    (hsite : stringsContains site "youtube" = false)
    (hcreate : env.createErr (title ++ ".txt") = false) :
    (∃ post, (merge env site title parts st).2.trace =
        st.trace ++ [.print ("Merging video parts into " ++ env.FilePath title "mp4" ++ "\n"),
          .create (title ++ ".txt")] ++
          (parts.map manifestLine).map (Event.writeText (title ++ ".txt")) ++
          [.close (title ++ ".txt"),
            .exec "ffmpeg" (concatArgs (title ++ ".txt") (env.FilePath title "mp4"))] ++ post ∧
        execsOf post = [] ∧ textWritesOf (title ++ ".txt") post = []) ∧
    (env.runCmd "ffmpeg" (concatArgs (title ++ ".txt") (env.FilePath title "mp4"))
        (st.fs.set (title ++ ".txt") (some ((parts.map manifestLine).flatMap utf8Bytes))) = none →
      (merge env site title parts st).1 = .exited ∧
      (merge env site title parts st).2.fs =
        st.fs.set (title ++ ".txt") (some ((parts.map manifestLine).flatMap utf8Bytes))) ∧
    (∀ fs1, env.runCmd "ffmpeg" (concatArgs (title ++ ".txt") (env.FilePath title "mp4"))
        (st.fs.set (title ++ ".txt") (some ((parts.map manifestLine).flatMap utf8Bytes))) =
          some fs1 →
      (merge env site title parts st).1 = .returned ∧
      ∀ p, (merge env site title parts st).2.fs p =
        if p ∈ (title ++ ".txt") :: parts then none else fs1 p) := by
  have hfs := writeManifest_fold_fs (title ++ ".txt") parts
    ({ fs := st.fs.set (title ++ ".txt") (some []),
       trace := st.trace ++ [.print ("Merging video parts into " ++ env.FilePath title "mp4" ++ "\n")]
         ++ [.create (title ++ ".txt")] } : State) [] (by simp [FS.set])
  simp only [FS.set_set, List.nil_append] at hfs
  unfold merge
  simp only [hsite, Bool.false_eq_true, if_false, writeManifest, hcreate, State.emit_trace,
    State.emit_fs, State.emit, hfs]
  cases hrun : env.runCmd "ffmpeg" (concatArgs (title ++ ".txt") (env.FilePath title "mp4"))
      (st.fs.set (title ++ ".txt") (some ((parts.map manifestLine).flatMap utf8Bytes))) with
  | none =>
    simp only [writeManifest_fold_trace, hfs]
    refine ⟨⟨[.fatal "ffmpeg"], ?_, rfl, rfl⟩, fun _ => ?_, fun fs1 h => ?_⟩
    · simp [List.map_map, Function.comp_def]
    · simp
    · cases h
  | some fs1 =>
    simp only [remove_fold_trace, remove_fold_fs, writeManifest_fold_trace]
    refine ⟨⟨((title ++ ".txt") :: parts).map Event.remove, ?_, execsOf_map_remove _,
      textWritesOf_map_remove _ _⟩, fun h => ?_, fun fs2 h => ?_⟩
    · simp [List.map_map, Function.comp_def]
    · cases h
    · cases h
      simp

/-- C6, as stated, fails: when the manifest `t.txt` cannot be created,
`Download` drops the error, writes no line at all, and still starts ffmpeg
on the manifest path; the two parts are on disk, the manifest is not. -/
theorem Download_runs_ffmpeg_without_manifest :
    textWritesOf "t.txt" manifestFailRun.2.trace = [] ∧
    execsOf manifestFailRun.2.trace = [("ffmpeg", concatArgs "t.txt" "t.mp4")] ∧
    manifestFailRun.2.fs "t.txt" = none ∧
    manifestFailRun.2.fs "t[0].ts" = some [1, 2, 3] ∧
    manifestFailRun.2.fs "t[1].ts" = some [1, 2, 3] ∧
    manifestFailRun.1 = .exited := by
  decide

/-- C6, amended: for a selected format with `n >= 2` fragments of a video
on a site that uses the concatenation strategy, once the fetches have all
returned, in whatever order they ran, and provided the manifest
`<title>.txt` can be created, `Download` creates the manifest, writes
exactly `n` lines to it, closes it and then starts ffmpeg with the
concatenation arguments; these are the only manifest lines and the only
program run of the whole call. The `i`-th line is `file '<p_i>'` where
`p_i` is the path of the part named `<title>[i]` with the `i`-th fragment's
extension: the lines follow the fragment index order and do not depend on
`order`. ffmpeg runs on the file system the fetches left, in which the
manifest holds exactly the bytes of these `n` lines, whatever it held
before: if ffmpeg fails the process exits with the manifest still holding
them, and if it succeeds `Download` returns. -/
theorem Download_manifest_lines (rt : Runtime) (env : Env) (config : Config)
    (order : List Nat) (v v1 : VideoData) (refer title format : String) (st : State)
    (data : FormatData)
    (hgen : genSortedFormats rt v = some v1)
    (htitle : title = if config.OutputName = "" then v.Title else env.FileName config.OutputName)
    (hname : format = if config.Format = "" then "default" else config.Format)
    (hdump : config.ExtractedData = false)
    (hformat : mapLookup v1.Formats format = some data)
    (hinfo : config.InfoOnly = false)
    (hmerged : st.fs (env.FilePath title "mp4") = none)
    (hn : 2 ≤ data.URLs.length)
    (hsaves : (runSaves env refer title data.Size data.URLs order
      (fanOutState st format data.Size)).1 = .returned)
    (hvideo : v.Type_ = "video")
    (hsite : stringsContains v.Site "youtube" = false)
    (hcreate : env.createErr (title ++ ".txt") = false) :
    ∃ lines : List String,
      lines.length = data.URLs.length ∧
      (∀ (i : Nat) (hi : i < data.URLs.length),
        lines[i]? = some ("file \x27" ++
          env.FilePath (title ++ "[" ++ toString i ++ "]") (data.URLs.get ⟨i, hi⟩).Ext ++
          "\x27\n")) ∧
      (∃ post, (Download rt env config order v refer st).2.trace =
        (runSaves env refer title data.Size data.URLs order
          (fanOutState st format data.Size)).2.trace ++
        [.barFinish, .print ("Merging video parts into " ++ env.FilePath title "mp4" ++ "\n"),
          .create (title ++ ".txt")] ++
        lines.map (Event.writeText (title ++ ".txt")) ++
        [.close (title ++ ".txt"),
          .exec "ffmpeg" (concatArgs (title ++ ".txt") (env.FilePath title "mp4"))] ++ post ∧
        execsOf post = [] ∧ textWritesOf (title ++ ".txt") post = []) ∧
      textWritesOf (title ++ ".txt") (Download rt env config order v refer st).2.trace =
        textWritesOf (title ++ ".txt") st.trace ++ lines ∧
      execsOf (Download rt env config order v refer st).2.trace =
        execsOf st.trace ++
          [("ffmpeg", concatArgs (title ++ ".txt") (env.FilePath title "mp4"))] ∧
      (env.runCmd "ffmpeg" (concatArgs (title ++ ".txt") (env.FilePath title "mp4"))
          ((runSaves env refer title data.Size data.URLs order
            (fanOutState st format data.Size)).2.fs.set (title ++ ".txt")
              (some (lines.flatMap utf8Bytes))) = none →
        (Download rt env config order v refer st).1 = .exited ∧
        (Download rt env config order v refer st).2.fs (title ++ ".txt") =
          some (lines.flatMap utf8Bytes)) ∧
      (∀ fs1, env.runCmd "ffmpeg" (concatArgs (title ++ ".txt") (env.FilePath title "mp4"))
          ((runSaves env refer title data.Size data.URLs order
            (fanOutState st format data.Size)).2.fs.set (title ++ ".txt")
              (some (lines.flatMap utf8Bytes))) = some fs1 →
        (Download rt env config order v refer st).1 = .returned) := by
  obtain ⟨hS, hT, hK⟩ := genSortedFormats_fields rt v v1 hgen
  have hne : ¬ data.URLs.length = 1 := by omega
  have hmergedB : (FileSize st.fs (env.FilePath title "mp4")).2 = false := by
    simp [FileSize, hmerged]
  have hx := runSaves_trace env refer title data.Size data.URLs order
    (fanOutState st format data.Size)
  refine ⟨(partPaths env title data.URLs).map manifestLine, ?_, ?_, ?_⟩
  · simp [partPaths_length]
  · intro i hi
    rw [List.getElem?_map, partPaths_getElem?, List.getElem?_eq_getElem hi]
    rfl
  unfold Download
  rw [hgen]
  simp only [hdump, Bool.false_eq_true, if_false, hT, ← htitle, ← hname, hformat, hinfo,
    State.emit_fs, hmergedB, hne, hK, hvideo, hS, ne_eq, not_true_eq_false]
  unfold fanOutState at hsaves hx ⊢
  cases hr : runSaves env refer title data.Size data.URLs order
      ((st.emit [.printInfo format]).emit [.barNew data.Size, .barStart]) with
  | mk o st1 =>
    rw [hr] at hsaves hx
    simp only [] at hsaves
    subst hsaves
    simp only []
    obtain ⟨⟨post, htr, hpe, hpt⟩, hfail, hok⟩ := merge_concat env v.Site title
      (partPaths env title data.URLs) (st1.emit [.barFinish]) hsite hcreate
    simp only [State.emit_trace, State.emit_fs] at htr hfail hok
    have hst1e : execsOf st1.trace = execsOf st.trace := by
      rw [hx.execsOf]; simp [State.emit_trace, execsOf]
    have hst1t : textWritesOf (title ++ ".txt") st1.trace =
        textWritesOf (title ++ ".txt") st.trace := by
      rw [hx.textWritesOf]; simp [State.emit_trace, textWritesOf]
    refine ⟨⟨post, ?_, hpe, hpt⟩, ?_, ?_, ?_, ?_⟩
    · rw [htr]; simp
    · rw [htr]
      simp only [textWritesOf_append, hpt, hst1t, List.append_nil]
      have h1 : textWritesOf (title ++ ".txt")
          (((partPaths env title data.URLs).map manifestLine).map
            (Event.writeText (title ++ ".txt"))) =
          (partPaths env title data.URLs).map manifestLine := by
        rw [List.map_map]
        exact textWritesOf_map_writeText _ _
      rw [h1]
      simp [textWritesOf]
    · rw [htr]
      simp only [execsOf_append, hpe, hst1e, List.append_nil]
      have h1 : execsOf (((partPaths env title data.URLs).map manifestLine).map
            (Event.writeText (title ++ ".txt"))) = [] := by
        generalize (partPaths env title data.URLs).map manifestLine = l
        induction l with
        | nil => rfl
        | cons a l ih =>
          show execsOf ([Event.writeText (title ++ ".txt") a] ++ _) = []
          rw [execsOf_append, ih]; rfl
      rw [h1]
      simp [execsOf]
    · intro h
      obtain ⟨h1, h2⟩ := hfail h
      exact ⟨h1, by rw [h2]; simp [FS.set]⟩
    · intro fs1 h
      exact (hok fs1 h).1

/-- Witness of C6: two fragments fetched in the order 1, 0. -/
theorem Download_manifest_lines_witness :
    ∃ lines : List String,
      lines.length = 2 ∧
      lines[0]? = some "file \x27t[0].ts\x27\n" ∧
      lines[1]? = some "file \x27t[1].ts\x27\n" ∧
      textWritesOf "t.txt" (Download Runtime.reference
        (exampleEnv (fun _ => some ⟨200, [1, 2, 3], false⟩)) ⟨false, "", "", false, 2⟩ [1, 0]
        ⟨"youku", "t", "video",
          [("default", ⟨[⟨"http://a/0", 3, "ts"⟩, ⟨"http://a/1", 3, "ts"⟩], "hd", 6, ""⟩)], []⟩
        "ref" emptyState).2.trace = textWritesOf "t.txt" emptyState.trace ++ lines ∧
      execsOf (Download Runtime.reference
        (exampleEnv (fun _ => some ⟨200, [1, 2, 3], false⟩)) ⟨false, "", "", false, 2⟩ [1, 0]
        ⟨"youku", "t", "video",
          [("default", ⟨[⟨"http://a/0", 3, "ts"⟩, ⟨"http://a/1", 3, "ts"⟩], "hd", 6, ""⟩)], []⟩
        "ref" emptyState).2.trace =
        execsOf emptyState.trace ++ [("ffmpeg", concatArgs "t.txt" "t.mp4")] ∧
      (Download Runtime.reference
        (exampleEnv (fun _ => some ⟨200, [1, 2, 3], false⟩)) ⟨false, "", "", false, 2⟩ [1, 0]
        ⟨"youku", "t", "video",
          [("default", ⟨[⟨"http://a/0", 3, "ts"⟩, ⟨"http://a/1", 3, "ts"⟩], "hd", 6, ""⟩)], []⟩
        "ref" emptyState).1 = .returned :=
  let ⟨lines, h1, h2, _, h4, h5, _, h7⟩ := Download_manifest_lines Runtime.reference
    (exampleEnv (fun _ => some ⟨200, [1, 2, 3], false⟩)) ⟨false, "", "", false, 2⟩ [1, 0]
    ⟨"youku", "t", "video",
      [("default", ⟨[⟨"http://a/0", 3, "ts"⟩, ⟨"http://a/1", 3, "ts"⟩], "hd", 6, ""⟩)], []⟩
    ⟨"youku", "t", "video",
      [("default", ⟨[⟨"http://a/0", 3, "ts"⟩, ⟨"http://a/1", 3, "ts"⟩], "hd", 6, "default"⟩)],
      [⟨[⟨"http://a/0", 3, "ts"⟩, ⟨"http://a/1", 3, "ts"⟩], "hd", 6, "default"⟩]⟩
    "ref" "t" "default" emptyState
    ⟨[⟨"http://a/0", 3, "ts"⟩, ⟨"http://a/1", 3, "ts"⟩], "hd", 6, "default"⟩
    (by decide) (by decide) (by decide) rfl (by decide) rfl rfl (by decide) (by decide)
    (by decide) (by decide) rfl
  ⟨lines, h1, h2 0 (by decide), h2 1 (by decide), h4, h5, h7 _ rfl⟩

end Annie
